import Mathlib

/-!
Verification of the bash-parser-ast front end: a shallow embedding of the
lexical scanner (`Tokenizer` in ast.ts) and of the recursive-descent syntax
builder (`BashParser`), together with proofs about the claims of the
specification.  Machine strings are modeled as `List Char` with `Nat` byte
offsets; the builder's unbounded loops are given explicit fuel (structural
recursion), and a sufficiency bound for the fuel is proved separately, so
that every definition evaluates by `rfl`/`decide`.
-/

set_option maxHeartbeats 1000000

namespace BashAst

/-- Source position: offsets plus 1-based line/column (ast.ts `Position`).
The TS field `end` is named `endPos` here (`end` is reserved in Lean). -/
structure Position where
  start : Nat
  endPos : Nat
  line : Nat
  column : Nat
deriving Repr, DecidableEq

/-- Token kinds (ast.ts `TokenType`). -/
inductive TokenType where
  | WORD | PIPE | REDIRECT_OUT | REDIRECT_IN | REDIRECT_APPEND
  | SEMICOLON | AMPERSAND | AND | OR
  | LPAREN | RPAREN | LBRACE | RBRACE
  | IF | THEN | ELSE | FI | FOR | WHILE | DO | DONE | FUNCTION
  | NEWLINE | EOF | VARIABLE | QUOTED_STRING | COMMENT
deriving Repr, DecidableEq

/-- A token (ast.ts `Token`). -/
structure Token where
  type : TokenType
  value : String
  position : Position
deriving Repr, DecidableEq

/-! ### Scanner -/

/-- Scanner state: the unconsumed characters plus the cursor offset and the
1-based line/column of the cursor (ast.ts `Tokenizer` fields). -/
structure TkState where
  remaining : List Char
  pos : Nat
  line : Nat
  column : Nat
deriving Repr

/-- Line/column bookkeeping for consuming one character (ast.ts `Tokenizer.advance`). -/
def lineColAfter (c : Char) (line column : Nat) : Nat × Nat :=
  if c = '\n' then (line + 1, 1) else (line, column + 1)

/-- Consume one character (ast.ts `Tokenizer.advance`). -/
def tkAdvance (s : TkState) : TkState :=
  match s.remaining with
  | [] => s
  | c :: rest =>
    let lc := lineColAfter c s.line s.column
    ⟨rest, s.pos + 1, lc.1, lc.2⟩

/-- Word-character class: letters, digits, underscore, dot, slash, dash
(ast.ts `Tokenizer.isWordChar`). -/
def isWordChar (c : Char) : Bool :=
  decide (('a' ≤ c ∧ c ≤ 'z') ∨ ('A' ≤ c ∧ c ≤ 'Z') ∨ ('0' ≤ c ∧ c ≤ '9')
    ∨ c = '_' ∨ c = '.' ∨ c = '/' ∨ c = '-')

/-- Skip spaces and tabs without emitting a token (ast.ts `Tokenizer.skipWhitespace`). -/
def skipWSAux : List Char → Nat → Nat → Nat → TkState
  | [], p, l, c => ⟨[], p, l, c⟩
  | ch :: rest, p, l, c =>
    if ch = ' ' ∨ ch = '\t' then skipWSAux rest (p + 1) l (c + 1)
    else ⟨ch :: rest, p, l, c⟩

/-- Consume comment text through end of line (ast.ts `Tokenizer.readComment` loop). -/
def readCommentAux : List Char → Nat → Nat → Nat → String → String × TkState
  | [], p, l, c, acc => (acc, ⟨[], p, l, c⟩)
  | ch :: rest, p, l, c, acc =>
    if ch = '\n' then (acc, ⟨ch :: rest, p, l, c⟩)
    else readCommentAux rest (p + 1) l (c + 1) (acc.push ch)

/-- Consume quoted-string content up to the closing quote; a backslash passes the
following character through literally (ast.ts `Tokenizer.readQuotedString` loop). -/
def readQuotedAux (quote : Char) : List Char → Nat → Nat → Nat → String → String × TkState
  | [], p, l, c, acc => (acc, ⟨[], p, l, c⟩)
  | ch :: rest, p, l, c, acc =>
    if ch = quote then (acc, ⟨ch :: rest, p, l, c⟩)
    else if ch = '\\' then
      match rest with
      | [] => (acc, ⟨[], p + 1, l, c + 1⟩)
      | d :: rest' =>
        let lc := lineColAfter d l (c + 1)
        readQuotedAux quote rest' (p + 2) lc.1 lc.2 (acc.push d)
    else
      let lc := lineColAfter ch l c
      readQuotedAux quote rest (p + 1) lc.1 lc.2 (acc.push ch)

/-- Consume `${NAME}` content up to `\x7d` (ast.ts `Tokenizer.readVariable`, brace form). -/
def readVarBraceAux : List Char → Nat → Nat → Nat → String → String × TkState
  | [], p, l, c, acc => (acc, ⟨[], p, l, c⟩)
  | ch :: rest, p, l, c, acc =>
    if ch = '}' then (acc, ⟨ch :: rest, p, l, c⟩)
    else
      let lc := lineColAfter ch l c
      readVarBraceAux rest (p + 1) lc.1 lc.2 (acc.push ch)

/-- Consume a run of word characters (ast.ts `Tokenizer.readWord` /
`readVariable` bare-name loops). -/
def readWordCharsAux : List Char → Nat → Nat → Nat → String → String × TkState
  | [], p, l, c, acc => (acc, ⟨[], p, l, c⟩)
  | ch :: rest, p, l, c, acc =>
    if isWordChar ch then readWordCharsAux rest (p + 1) l (c + 1) (acc.push ch)
    else (acc, ⟨ch :: rest, p, l, c⟩)

/-- Reserved-word table (ast.ts `Tokenizer.getKeywordType`). -/
def getKeywordType (value : String) : Option TokenType :=
  if value = "if" then some .IF
  else if value = "then" then some .THEN
  else if value = "else" then some .ELSE
  else if value = "fi" then some .FI
  else if value = "for" then some .FOR
  else if value = "while" then some .WHILE
  else if value = "do" then some .DO
  else if value = "done" then some .DONE
  else if value = "function" then some .FUNCTION
  else none

/-- The zero-width position at the cursor (ast.ts `Tokenizer.getPosition`). -/
def TkState.getPosition (s : TkState) : Position := ⟨s.pos, s.pos, s.line, s.column⟩

/-- Build a token whose span runs from `startPos` to the current cursor
(ast.ts `Tokenizer.createToken`). -/
def createToken (type : TokenType) (value : String) (startPos : Position) (s : TkState) : Token :=
  ⟨type, value, ⟨startPos.start, s.pos, startPos.line, startPos.column⟩⟩

/-- Comment branch of the scanner (ast.ts `Tokenizer.readComment`): skip `#`,
read to end of line. -/
def commentTok (rest : List Char) (p l c : Nat) : Option Token × TkState :=
  (some (createToken .COMMENT (readCommentAux rest (p + 1) l (c + 1) "").1 ⟨p, p, l, c⟩
      (readCommentAux rest (p + 1) l (c + 1) "").2),
    (readCommentAux rest (p + 1) l (c + 1) "").2)

/-- Single-character operator/newline branch of the scanner. -/
def oneCharTok (ty : TokenType) (v : String) (ch : Char) (rest : List Char)
    (p l c : Nat) : Option Token × TkState :=
  (some (createToken ty v ⟨p, p, l, c⟩ (tkAdvance ⟨ch :: rest, p, l, c⟩)),
    tkAdvance ⟨ch :: rest, p, l, c⟩)

/-- Operator branch with a one-character lookahead for the doubled form
(`||`, `&&`, `>>`). -/
def twoCharTok (ty1 : TokenType) (v1 : String) (nx : Char) (ty2 : TokenType) (v2 : String)
    (ch : Char) (rest : List Char) (p l c : Nat) : Option Token × TkState :=
  match (tkAdvance ⟨ch :: rest, p, l, c⟩).remaining with
  | c2 :: _ =>
    if c2 = nx then
      (some (createToken ty2 v2 ⟨p, p, l, c⟩ (tkAdvance (tkAdvance ⟨ch :: rest, p, l, c⟩))),
        tkAdvance (tkAdvance ⟨ch :: rest, p, l, c⟩))
    else (some (createToken ty1 v1 ⟨p, p, l, c⟩ (tkAdvance ⟨ch :: rest, p, l, c⟩)),
      tkAdvance ⟨ch :: rest, p, l, c⟩)
  | [] => (some (createToken ty1 v1 ⟨p, p, l, c⟩ (tkAdvance ⟨ch :: rest, p, l, c⟩)),
      tkAdvance ⟨ch :: rest, p, l, c⟩)

/-- Skip a closing delimiter when it is the current character (the
`if current === quote: advance` steps of `readQuotedString`/`readVariable`). -/
def closeDelim (quote : Char) (st : TkState) : TkState :=
  match st.remaining with
  | c2 :: _ => if c2 = quote then tkAdvance st else st
  | [] => st

/-- Quoted-string branch (ast.ts `Tokenizer.readQuotedString`): skip the
opening quote, read content, skip the closing quote when present. -/
def quotedTok (quote : Char) (rest : List Char) (p l c : Nat) : Option Token × TkState :=
  (some (createToken .QUOTED_STRING (readQuotedAux quote rest (p + 1) l (c + 1) "").1 ⟨p, p, l, c⟩
      (closeDelim quote (readQuotedAux quote rest (p + 1) l (c + 1) "").2)),
    closeDelim quote (readQuotedAux quote rest (p + 1) l (c + 1) "").2)

/-- Variable branch (ast.ts `Tokenizer.readVariable`): either the brace form
`${NAME}` or a bare run of word characters after `$`. -/
def varTok (rest : List Char) (p l c : Nat) : Option Token × TkState :=
  match rest with
  | '{' :: rest2 =>
    (some (createToken .VARIABLE (readVarBraceAux rest2 (p + 2) l (c + 2) "").1 ⟨p, p, l, c⟩
        (closeDelim '}' (readVarBraceAux rest2 (p + 2) l (c + 2) "").2)),
      closeDelim '}' (readVarBraceAux rest2 (p + 2) l (c + 2) "").2)
  | _ =>
    (some (createToken .VARIABLE (readWordCharsAux rest (p + 1) l (c + 1) "").1 ⟨p, p, l, c⟩
        (readWordCharsAux rest (p + 1) l (c + 1) "").2),
      (readWordCharsAux rest (p + 1) l (c + 1) "").2)

/-- Word branch (ast.ts `Tokenizer.readWord`): a run of word characters with
keyword reclassification, or the single-character fallback. -/
def wordTok (ch : Char) (rest : List Char) (p l c : Nat) : Option Token × TkState :=
  if isWordChar ch then
    (some (createToken ((getKeywordType (readWordCharsAux (ch :: rest) p l c "").1).getD .WORD)
        (readWordCharsAux (ch :: rest) p l c "").1 ⟨p, p, l, c⟩
        (readWordCharsAux (ch :: rest) p l c "").2),
      (readWordCharsAux (ch :: rest) p l c "").2)
  else
    (some (createToken .WORD (String.singleton ch) ⟨p, p, l, c⟩ (tkAdvance ⟨ch :: rest, p, l, c⟩)),
      tkAdvance ⟨ch :: rest, p, l, c⟩)

/-- Post-whitespace scanner dispatch on the current character
(ast.ts `Tokenizer.nextToken` after `skipWhitespace`). -/
def scanTok : TkState → Option Token × TkState
  | ⟨[], p, l, c⟩ => (none, ⟨[], p, l, c⟩)
  | ⟨ch :: rest, p, l, c⟩ =>
    if ch = '#' then commentTok rest p l c
    else if ch = '\n' then oneCharTok .NEWLINE "\n" ch rest p l c
    else if ch = '|' then twoCharTok .PIPE "|" '|' .OR "||" ch rest p l c
    else if ch = '&' then twoCharTok .AMPERSAND "&" '&' .AND "&&" ch rest p l c
    else if ch = '>' then twoCharTok .REDIRECT_OUT ">" '>' .REDIRECT_APPEND ">>" ch rest p l c
    else if ch = '<' then oneCharTok .REDIRECT_IN "<" ch rest p l c
    else if ch = ';' then oneCharTok .SEMICOLON ";" ch rest p l c
    else if ch = '(' then oneCharTok .LPAREN "(" ch rest p l c
    else if ch = ')' then oneCharTok .RPAREN ")" ch rest p l c
    else if ch = '{' then oneCharTok .LBRACE "\x7b" ch rest p l c
    else if ch = '}' then oneCharTok .RBRACE "\x7d" ch rest p l c
    else if ch = '"' ∨ ch = '\'' then quotedTok ch rest p l c
    else if ch = '$' then varTok rest p l c
    else wordTok ch rest p l c

/-- One scanner step: skip whitespace, then dispatch on the current character
(ast.ts `Tokenizer.nextToken`). -/
def nextToken (s0 : TkState) : Option Token × TkState :=
  scanTok (skipWSAux s0.remaining s0.pos s0.line s0.column)

/-- The scanner main loop (ast.ts `Tokenizer.tokenize` while-loop), with fuel.
Each `nextToken` on nonempty input consumes at least one character, so fuel
`remaining.length` is enough (proved below). -/
def tokenizeAux : Nat → TkState → List Token × TkState
  | 0, s => ([], s)
  | fuel + 1, s =>
    match s.remaining with
    | [] => ([], s)
    | _ :: _ =>
      let r := nextToken s
      let rest := tokenizeAux fuel r.2
      (r.1.toList ++ rest.1, rest.2)

def initTkState (input : String) : TkState := ⟨input.toList, 0, 1, 1⟩

/-- Whole-input scan plus the terminal EOF token (ast.ts `Tokenizer.tokenize`). -/
def tokenizeFull (input : String) : List Token × TkState :=
  let s0 := initTkState input
  let r := tokenizeAux (s0.remaining.length + 1) s0
  (r.1 ++ [createToken .EOF "" r.2.getPosition r.2], r.2)

def tokenize (input : String) : List Token := (tokenizeFull input).1

/-! ### Syntax tree and errors -/

/-- Structured parse failure (errors.ts `ParseError`). -/
structure ParseError where
  message : String
  position : Option Position
deriving Repr, DecidableEq

/-- A simple command node (ast.ts `Command`; the `redirections` field is never
populated by the builder and is omitted). -/
structure Cmd where
  name : String
  args : List String
  position : Option Position
deriving Repr, DecidableEq

/-- Expression nodes (ast.ts `Literal` / `Variable`; `CommandSubstitution` is
declared in the tree shape but never produced by the builder, so it is not
represented). -/
inductive Expression where
  | literal (value : String) (quoted : Bool) (position : Option Position)
  | varRef (name : String) (position : Option Position)
deriving Repr, DecidableEq

/-- Statement nodes (ast.ts `Command`/`Pipeline`/`Conditional`/`Loop`/
`FunctionDeclaration`/`VariableAssignment`).  `Pipeline.commands` holds
command nodes only, exactly as the builder produces them.  `Loop.kind` is a
raw string, mirroring the unchecked TS cast. -/
inductive Statement where
  | command (cmd : Cmd)
  | pipeline (commands : List Cmd) (position : Option Position)
  | conditional (condition : Expression) (thenBody : List Statement)
      (elseBody : Option (List Statement)) (position : Option Position)
  | loop (kind : String) (condition : Option Expression) (varName : Option String)
      (iterable : Option Expression) (body : List Statement) (position : Option Position)
  | funcDecl (name : String) (body : List Statement) (position : Option Position)
  | assignment (name : String) (value : Expression) (position : Option Position)
deriving Repr

/-- The root node (ast.ts `Program`). -/
structure Program where
  body : List Statement
  position : Option Position
deriving Repr

/-! ### Syntax builder -/

/-- Builder state (parser fields `tokens` and `position`). -/
structure PState where
  tokens : List Token
  position : Nat
deriving Repr

/-- Builder computation result.  `fuelOut` never occurs at the fuel bound used
by `parse` (proved below); the TS original has no such case. -/
inductive PRes (α : Type) where
  | ok (a : α) (s : PState)
  | err (e : ParseError)
  | fuelOut
deriving Repr

/-- Sequencing of builder steps. -/
def PRes.bind {α β : Type} : PRes α → (α → PState → PRes β) → PRes β
  | .ok a s, f => f a s
  | .err e, _ => .err e
  | .fuelOut, _ => .fuelOut

def currentToken (s : PState) : Option Token := s.tokens[s.position]?

/-- Kind test on the current token (parser `check`). -/
def check (t : TokenType) (s : PState) : Bool :=
  match currentToken s with
  | some tok => decide (tok.type = t)
  | none => false

/-- End-of-stream test (parser `isAtEnd`). -/
def isAtEndP (s : PState) : Bool :=
  decide (s.tokens.length ≤ s.position) || check .EOF s

/-- Cursor advance (parser `advance`): moves one token unless at end, and
returns `tokens[position - 1]` relative to the new cursor (absent when that
index is out of range, as for the TS `undefined`). -/
def advanceT (s : PState) : PState × Option Token :=
  let s' := if isAtEndP s then s else ⟨s.tokens, s.position + 1⟩
  (s', if s'.position = 0 then none else s'.tokens[s'.position - 1]?)

def advanceS (s : PState) : PState := (advanceT s).1

/-- `advance` as a result.  The `none` case (TS `undefined`, whose later field
access would be caught and rewrapped by `parse`) is modeled as the rewrapped
error directly; it is unreachable from `parse`. -/
def advTok (s : PState) : PRes Token :=
  match advanceT s with
  | (s', some tok) => .ok tok s'
  | (s', none) => .err ⟨"Unexpected error", (currentToken s').map (·.position)⟩

/-- Demand a token kind (parser `consume`). -/
def consume (t : TokenType) (msg : String) (s : PState) : PRes Token :=
  if check t s then advTok s
  else .err ⟨msg, (currentToken s).map (·.position)⟩

/-- Backfill a node span from the current token (parser `getNodePosition`).
The TS `current?.end || start.end` treats both an absent current token and a
zero end offset as falsy. -/
def getNodePosition (start : Option Position) (s : PState) : Option Position :=
  match start with
  | none => none
  | some st =>
    let e := match currentToken s with
      | some c => if c.position.endPos = 0 then st.endPos else c.position.endPos
      | none => st.endPos
    some ⟨st.start, e, st.line, st.column⟩

/-- Lookahead for `WORD` followed by a token whose text is `=` (parser
`isVariableAssignment`).  Note: only the text of the next token is compared,
never its kind. -/
def isVariableAssignment (s : PState) : Bool :=
  check .WORD s && decide (s.position + 1 < s.tokens.length) &&
    (match s.tokens[s.position + 1]? with
     | some next => decide (next.value = "=")
     | none => false)

/-- A single-token expression (parser `parseExpression`). -/
def parseExpression (s : PState) : PRes Expression :=
  if check .WORD s ∨ check .QUOTED_STRING s then
    (advTok s).bind fun tok s' =>
      .ok (.literal tok.value (decide (tok.type = .QUOTED_STRING)) (some tok.position)) s'
  else if check .VARIABLE s then
    (advTok s).bind fun tok s' => .ok (.varRef tok.value (some tok.position)) s'
  else .err ⟨"Expected expression", (currentToken s).map (·.position)⟩

/-- The argument run of a command (parser `parseCommand` while-loop). -/
def argsLoop : Nat → PState → PRes (List String)
  | 0, _ => .fuelOut
  | fuel + 1, s =>
    if check .WORD s ∨ check .QUOTED_STRING s then
      (advTok s).bind fun tok s' =>
        (argsLoop fuel s').bind fun rest s'' => .ok (tok.value :: rest) s''
    else .ok [] s

/-- A simple command (parser `parseCommand`). -/
def parseCommand : Nat → PState → PRes Cmd
  | 0, _ => .fuelOut
  | fuel + 1, s =>
    let start := (currentToken s).map (·.position)
    if check .WORD s then
      (advTok s).bind fun nameTok s₁ =>
        (argsLoop fuel s₁).bind fun args s₂ =>
          .ok ⟨nameTok.value, args, getNodePosition start s₂⟩ s₂
    else .err ⟨"Expected command name", (currentToken s).map (·.position)⟩

/-- The `| command` repetition of a pipeline (parser `parsePipeline` while-loop). -/
def pipeLoop : Nat → List Cmd → PState → PRes (List Cmd)
  | 0, _, _ => .fuelOut
  | fuel + 1, cmds, s =>
    if check .PIPE s then
      (parseCommand fuel (advanceS s)).bind fun c s₂ =>
        pipeLoop fuel (cmds ++ [c]) s₂
    else .ok cmds s

/-- A pipeline, collapsed to a bare command when it has a single command
(parser `parsePipeline`). -/
def parsePipeline : Nat → PState → PRes Statement
  | 0, _ => .fuelOut
  | fuel + 1, s =>
    (parseCommand fuel s).bind fun c s₁ =>
      (pipeLoop fuel [c] s₁).bind fun cmds s₂ =>
        match cmds with
        | [single] => .ok (.command single) s₂
        | _ => .ok (.pipeline cmds (getNodePosition none s₂)) s₂

/-- A variable assignment (parser `parseVariableAssignment`). -/
def parseVariableAssignment (s : PState) : PRes Statement :=
  let start := (currentToken s).map (·.position)
  (advTok s).bind fun nameTok s₁ =>
    (consume .WORD "Expected '='" s₁).bind fun _ s₂ =>
      (parseExpression s₂).bind fun v s₃ =>
        .ok (.assignment nameTok.value v (getNodePosition start s₃)) s₃

/-- Which nested statement-collection loop is running (the four body loops of
`parseConditional`, `parseLoop` and `parseFunction`). -/
inductive BodyKind where
  | thenB | elseB | loopB | funcB
deriving Repr, DecidableEq

/-- Stop condition of each nested body loop. -/
def stopB (k : BodyKind) (s : PState) : Bool :=
  match k with
  | .thenB => check .ELSE s || check .FI s || isAtEndP s
  | .elseB => check .FI s || isAtEndP s
  | .loopB => check .DONE s || isAtEndP s
  | .funcB => check .RBRACE s || isAtEndP s

mutual

/-- Statement dispatch (parser `parseStatement`). -/
def parseStatement : Nat → PState → PRes (Option Statement)
  | 0, _ => .fuelOut
  | fuel + 1, s =>
    if check .COMMENT s then .ok none (advanceS s)
    else if check .EOF s then .ok none s
    else if check .IF s then
      (parseConditional fuel s).bind fun st s' => .ok (some st) s'
    else if check .FOR s ∨ check .WHILE s then
      (parseLoop fuel s).bind fun st s' => .ok (some st) s'
    else if check .FUNCTION s then
      (parseFunction fuel s).bind fun st s' => .ok (some st) s'
    else if isVariableAssignment s then
      (parseVariableAssignment s).bind fun st s' => .ok (some st) s'
    else if check .WORD s then
      (parsePipeline fuel s).bind fun st s' => .ok (some st) s'
    else .ok none s

/-- An if/then/else/fi conditional (parser `parseConditional`). -/
def parseConditional : Nat → PState → PRes Statement
  | 0, _ => .fuelOut
  | fuel + 1, s =>
    let start := (currentToken s).map (·.position)
    (consume .IF "Expected 'if'" s).bind fun _ s₁ =>
      (parseExpression s₁).bind fun cond s₂ =>
        (consume .THEN "Expected 'then'" s₂).bind fun _ s₃ =>
          (parseBody .thenB fuel s₃).bind fun thenBody s₄ =>
            (if check .ELSE s₄ then
                (parseBody .elseB fuel (advanceS s₄)).bind fun els s₅ => .ok (some els) s₅
              else .ok none s₄).bind fun elseBody s₆ =>
              (consume .FI "Expected 'fi'" s₆).bind fun _ s₇ =>
                .ok (.conditional cond thenBody elseBody (getNodePosition start s₇)) s₇

/-- A for/while loop (parser `parseLoop`).  The kind is the raw text of the
token at entry; the `in` slot accepts any WORD token (unvalidated, as in TS). -/
def parseLoop : Nat → PState → PRes Statement
  | 0, _ => .fuelOut
  | fuel + 1, s =>
    let start := (currentToken s).map (·.position)
    (advTok s).bind fun kindTok s₁ =>
      (if kindTok.value = "for" then
          (consume .WORD "Expected variable name" s₁).bind fun varTok s₂ =>
            (consume .WORD "Expected 'in'" s₂).bind fun _ s₃ =>
              (parseExpression s₃).bind fun iter s₄ =>
                .ok ((none : Option Expression), some varTok.value, some iter) s₄
        else
          (parseExpression s₁).bind fun cond s₂ =>
            .ok (some cond, (none : Option String), (none : Option Expression)) s₂).bind
        fun parts s₅ =>
        (consume .DO "Expected 'do'" s₅).bind fun _ s₆ =>
          (parseBody .loopB fuel s₆).bind fun body s₇ =>
            (consume .DONE "Expected 'done'" s₇).bind fun _ s₈ =>
              .ok (.loop kindTok.value parts.1 parts.2.1 parts.2.2 body
                    (getNodePosition start s₈)) s₈

/-- A function declaration (parser `parseFunction`). -/
def parseFunction : Nat → PState → PRes Statement
  | 0, _ => .fuelOut
  | fuel + 1, s =>
    let start := (currentToken s).map (·.position)
    (consume .FUNCTION "Expected 'function'" s).bind fun _ s₁ =>
      (consume .WORD "Expected function name" s₁).bind fun nameTok s₂ =>
        (consume .LPAREN "Expected '('" s₂).bind fun _ s₃ =>
          (consume .RPAREN "Expected ')'" s₃).bind fun _ s₄ =>
            (consume .LBRACE "Expected '\x7b'" s₄).bind fun _ s₅ =>
              (parseBody .funcB fuel s₅).bind fun body s₆ =>
                (consume .RBRACE "Expected '\x7d'" s₆).bind fun _ s₇ =>
                  .ok (.funcDecl nameTok.value body (getNodePosition start s₇)) s₇

/-- A nested statement-collection loop: skip newlines, collect statements,
advance on non-progress (the four body while-loops of the parser). -/
def parseBody : BodyKind → Nat → PState → PRes (List Statement)
  | k, 0, s => if stopB k s then .ok [] s else .fuelOut
  | k, fuel + 1, s =>
    if stopB k s then .ok [] s
    else if check .NEWLINE s then parseBody k fuel (advanceS s)
    else
      (parseStatement fuel s).bind fun st? s₁ =>
        match st? with
        | some st => (parseBody k fuel s₁).bind fun rest s₂ => .ok (st :: rest) s₂
        | none => parseBody k fuel (advanceS s₁)

/-- The top-level statement loop (parser `parseStatements`): skip newlines,
collect statements, advance on non-progress, then consume one optional
trailing semicolon or newline. -/
def parseStatementsTop : Nat → PState → PRes (List Statement)
  | 0, s => if isAtEndP s || check .EOF s then .ok [] s else .fuelOut
  | fuel + 1, s =>
    if isAtEndP s || check .EOF s then .ok [] s
    else if check .NEWLINE s then parseStatementsTop fuel (advanceS s)
    else
      (parseStatement fuel s).bind fun st? s₁ =>
        match st? with
        | some st =>
          let s₃ := if check .SEMICOLON s₁ ∨ check .NEWLINE s₁ then advanceS s₁ else s₁
          (parseStatementsTop fuel s₃).bind fun rest s₄ => .ok (st :: rest) s₄
        | none =>
          let s₂ := advanceS s₁
          let s₃ := if check .SEMICOLON s₂ ∨ check .NEWLINE s₂ then advanceS s₂ else s₂
          parseStatementsTop fuel s₃

end

/-- Top-level entry point (parser `parse`): tokenize, then parse all top-level
statements; the program node's span helper is called with no start, yielding
no position.  Fuel `2 * tokens.length + 2` is sufficient (proved below). -/
def parse (input : String) : PRes Program :=
  let tokens := tokenize input
  let s0 : PState := ⟨tokens, 0⟩
  (parseStatementsTop (2 * tokens.length + 2) s0).bind fun body s' =>
    .ok ⟨body, getNodePosition none s'⟩ s'

/-! ### Tree predicates -/

mutual

/-- `p` holds at every statement node of the tree. -/
def stmtAll (p : Statement → Bool) : Statement → Bool
  | .command c => p (.command c)
  | .pipeline cs pos => p (.pipeline cs pos)
  | .conditional c t e pos =>
    p (.conditional c t e pos) && stmtsAll p t && optStmtsAll p e
  | .loop k c v i b pos => p (.loop k c v i b pos) && stmtsAll p b
  | .funcDecl n b pos => p (.funcDecl n b pos) && stmtsAll p b
  | .assignment n v pos => p (.assignment n v pos)

def stmtsAll (p : Statement → Bool) : List Statement → Bool
  | [] => true
  | s :: rest => stmtAll p s && stmtsAll p rest

def optStmtsAll (p : Statement → Bool) : Option (List Statement) → Bool
  | none => true
  | some l => stmtsAll p l

end

/-- Per-node check for C3: a pipeline node has at least two commands. -/
def pipeLenP : Statement → Bool
  | .pipeline cs _ => decide (2 ≤ cs.length)
  | _ => true

/-- Per-node check for C8: a pipeline node carries no position annotation. -/
def pipePosP : Statement → Bool
  | .pipeline _ pos => pos.isNone
  | _ => true

/-- Per-node check for C9: a loop node's kind is `for` or `while`. -/
def loopKindP : Statement → Bool
  | .loop k _ _ _ _ _ => decide (k = "for" ∨ k = "while")
  | _ => true

/-- Coverage of one optional node position over the half-open token interval
`[a, b)` the builder consumed for that node: when the position is present, it
starts at or before the start offset of the FIRST consumed token (the token at
index `a`) and ends at or after the end offset of the LAST consumed token (the
token at index `b - 1`). -/
def posCovers (ts : List Token) (a b : Nat) (p? : Option Position) : Prop :=
  ∀ q, p? = some q →
    ∃ (ta tb : Token), a < b ∧ ts[a]? = some ta ∧ ts[b - 1]? = some tb ∧
      q.start ≤ ta.position.start ∧ tb.position.endPos ≤ q.endPos

def exprCovers (ts : List Token) (a b : Nat) : Expression → Prop
  | .literal _ _ p => posCovers ts a b p
  | .varRef _ p => posCovers ts a b p

def cmdCovers (ts : List Token) (a b : Nat) (c : Cmd) : Prop := posCovers ts a b c.position

mutual

/-- Every node of the statement tree covers its own consumed token interval,
nested inside the interval `[a, b)` consumed for the whole statement (C6): the
statement's own span covers the endpoints of `[a, b)` itself, and every child
node covers the endpoints of its own consumed sub-interval. -/
def stmtCovers (ts : List Token) : Nat → Nat → Statement → Prop
  | a, b, .command c => cmdCovers ts a b c
  | a, b, .pipeline cs pos =>
    posCovers ts a b pos ∧
      ∀ c ∈ cs, ∃ a2 b2, a ≤ a2 ∧ b2 ≤ b ∧ cmdCovers ts a2 b2 c
  | a, b, .conditional c t e pos =>
    posCovers ts a b pos ∧
      (∃ a2 b2, a ≤ a2 ∧ b2 ≤ b ∧ exprCovers ts a2 b2 c) ∧
      stmtsCovers ts a b t ∧ optCovers ts a b e
  | a, b, .loop _ c _v i bd pos =>
    posCovers ts a b pos ∧
      (∀ x, c = some x → ∃ a2 b2, a ≤ a2 ∧ b2 ≤ b ∧ exprCovers ts a2 b2 x) ∧
      (∀ x, i = some x → ∃ a2 b2, a ≤ a2 ∧ b2 ≤ b ∧ exprCovers ts a2 b2 x) ∧
      stmtsCovers ts a b bd
  | a, b, .funcDecl _ bd pos => posCovers ts a b pos ∧ stmtsCovers ts a b bd
  | a, b, .assignment _ v pos =>
    posCovers ts a b pos ∧ ∃ a2 b2, a ≤ a2 ∧ b2 ≤ b ∧ exprCovers ts a2 b2 v

/-- Each statement of the list covers its own consumed sub-interval of
`[a, b)`. -/
def stmtsCovers (ts : List Token) : Nat → Nat → List Statement → Prop
  | _, _, [] => True
  | a, b, st :: rest =>
    (∃ a2 b2, a ≤ a2 ∧ b2 ≤ b ∧ stmtCovers ts a2 b2 st) ∧ stmtsCovers ts a b rest

def optCovers (ts : List Token) : Nat → Nat → Option (List Statement) → Prop
  | _, _, none => True
  | a, b, some l => stmtsCovers ts a b l

end

/-! ### Concrete claim evaluations -/

/-- C1: the spec and the repository's own test expect
`parse "for item in list\ndo\necho $item\ndone"` to yield a for-Loop, but the
builder consumes the iterable and immediately demands DO without skipping the
intervening NEWLINE, so the parse fails with "Expected 'do'" at the newline
after `list` (code bug: the code contradicts its own test suite). -/
theorem loop_do_newline_fails :
    parse "for item in list\ndo\necho $item\ndone" =
      .err ⟨"Expected 'do'", some ⟨16, 17, 1, 17⟩⟩ := rfl

/-- C5: `parse "if without fi"` raises a ParseError (the builder takes `without`
as the condition expression and then demands THEN while looking at the FI
token), and the raised error carries a defined source position (the span of
the `fi` token). -/
theorem if_without_fi_raises :
    parse "if without fi" = .err ⟨"Expected 'then'", some ⟨11, 13, 1, 12⟩⟩ := rfl

/-- C7: `parse "name=john"` yields a single VariableAssignment with name
`name` and value the unquoted Literal `john`; the `=` is scanned by the
fallback rule as a single-character WORD token. -/
theorem parse_name_john :
    (tokenize "name=john")[1]? = some ⟨.WORD, "=", ⟨4, 5, 1, 5⟩⟩ ∧
    parse "name=john" =
      .ok ⟨[.assignment "name" (.literal "john" false (some ⟨5, 9, 1, 6⟩)) (some ⟨0, 9, 1, 1⟩)],
            none⟩
          ⟨tokenize "name=john", 3⟩ :=
  ⟨rfl, rfl⟩

/-- C2 counterexample: for the input `echo "="`, the token following the
leading WORD is a QUOTED_STRING (not a WORD) whose text is `=`, yet the
builder's lookahead still selects the VariableAssignment branch (it compares
only the text), and the parse then fails with "Expected '='" instead of
parsing a pipeline/command as the claim asserts. -/
theorem quoted_equals_dispatches_to_assignment :
    (tokenize "echo \"=\"")[1]? = some ⟨.QUOTED_STRING, "=", ⟨5, 8, 1, 6⟩⟩ ∧
    isVariableAssignment ⟨tokenize "echo \"=\"", 0⟩ = true ∧
    parse "echo \"=\"" = .err ⟨"Expected '='", some ⟨5, 8, 1, 6⟩⟩ :=
  ⟨rfl, rfl, rfl⟩

/-! ### Basic builder lemmas -/

theorem check_true_iff {t : TokenType} {s : PState} :
    check t s = true ↔ ∃ tok, currentToken s = some tok ∧ tok.type = t := by
  unfold check
  cases h : currentToken s <;> simp

theorem check_false_of_check_true {t t' : TokenType} {s : PState}
    (h : check t s = true) (hne : t' ≠ t) : check t' s = false := by
  obtain ⟨tok, htok, hty⟩ := check_true_iff.mp h
  unfold check
  rw [htok]
  simp only [decide_eq_false_iff_not, hty]
  exact fun hh => hne hh.symm

theorem isVariableAssignment_eq_of_next {s : PState} {next : Token}
    (h : check .WORD s = true) (hnext : s.tokens[s.position + 1]? = some next) :
    isVariableAssignment s = decide (next.value = "=") := by
  have hlt : s.position + 1 < s.tokens.length := by
    obtain ⟨hlt, -⟩ := List.getElem?_eq_some.mp hnext
    exact hlt
  unfold isVariableAssignment
  rw [h, hnext]
  simp [hlt]

/-- C2 (amended): at a statement boundary whose current token is a WORD and
which has a following token, the builder dispatches to VariableAssignment if
and only if that following token's text is literally `=` — its kind is never
consulted; otherwise the WORD begins a Pipeline. -/
theorem parseStatement_word_dispatch (fuel : Nat) (s : PState) (next : Token)
    (h : check .WORD s = true) (hnext : s.tokens[s.position + 1]? = some next) :
    parseStatement (fuel + 1) s =
      if next.value = "=" then
        (parseVariableAssignment s).bind fun st s' => .ok (some st) s'
      else (parsePipeline fuel s).bind fun st s' => .ok (some st) s' := by
  have hC := check_false_of_check_true h (by decide : TokenType.COMMENT ≠ .WORD)
  have hE := check_false_of_check_true h (by decide : TokenType.EOF ≠ .WORD)
  have hI := check_false_of_check_true h (by decide : TokenType.IF ≠ .WORD)
  have hFo := check_false_of_check_true h (by decide : TokenType.FOR ≠ .WORD)
  have hW := check_false_of_check_true h (by decide : TokenType.WHILE ≠ .WORD)
  have hFn := check_false_of_check_true h (by decide : TokenType.FUNCTION ≠ .WORD)
  have hva := isVariableAssignment_eq_of_next h hnext
  rw [parseStatement]
  simp only [hC, hE, hI, hFo, hW, hFn, hva, h, Bool.false_eq_true, if_false, false_or,
    if_true, decide_eq_true_eq]

/-! ### Scanner lemmas: cursor monotonicity and progress -/

theorem tkAdvance_pos_le (s : TkState) : s.pos ≤ (tkAdvance s).pos := by
  rcases s with ⟨rem, p, l, c⟩
  cases rem <;> simp [tkAdvance]

theorem skipWSAux_pos_le (cs : List Char) : ∀ p l c, p ≤ (skipWSAux cs p l c).pos := by
  induction cs with
  | nil => intro p l c; simp [skipWSAux]
  | cons ch rest ih =>
    intro p l c
    simp only [skipWSAux]
    split
    · exact (Nat.le_succ p).trans (ih (p + 1) l (c + 1))
    · exact Nat.le_refl p

theorem skipWSAux_len_le (cs : List Char) :
    ∀ p l c, (skipWSAux cs p l c).remaining.length ≤ cs.length := by
  induction cs with
  | nil => intro p l c; simp [skipWSAux]
  | cons ch rest ih =>
    intro p l c
    simp only [skipWSAux]
    split
    · exact (ih (p + 1) l (c + 1)).trans (Nat.le_succ _)
    · exact Nat.le_refl _

theorem readCommentAux_pos_le (cs : List Char) :
    ∀ p l c acc, p ≤ ((readCommentAux cs p l c acc).2).pos := by
  induction cs with
  | nil => intro p l c acc; simp [readCommentAux]
  | cons ch rest ih =>
    intro p l c acc
    simp only [readCommentAux]
    split
    · exact Nat.le_refl p
    · exact (Nat.le_succ p).trans (ih _ _ _ _)

theorem readCommentAux_len_le (cs : List Char) :
    ∀ p l c acc, ((readCommentAux cs p l c acc).2).remaining.length ≤ cs.length := by
  induction cs with
  | nil => intro p l c acc; simp [readCommentAux]
  | cons ch rest ih =>
    intro p l c acc
    simp only [readCommentAux]
    split
    · exact Nat.le_refl _
    · exact (ih _ _ _ _).trans (Nat.le_succ _)

theorem readQuotedAux_pos_le (quote : Char) (cs : List Char) (p0 l0 c0 : Nat) (acc0 : String) :
    p0 ≤ ((readQuotedAux quote cs p0 l0 c0 acc0).2).pos := by
  induction cs, p0, l0, c0, acc0 using readQuotedAux.induct quote with
  | case1 p l c acc => simp [readQuotedAux]
  | case2 rest p l c acc => rw [readQuotedAux.eq_def]; simp
  | case3 p l c acc h => rw [readQuotedAux.eq_def]; simp [h]
  | case4 p l c acc c1 rest lc hq ih =>
    rw [readQuotedAux.eq_def]
    simp only [if_neg hq, if_pos rfl]
    exact (by omega : p ≤ p + 2).trans ih
  | case5 ch rest p l c acc h1 h2 lc ih =>
    rw [readQuotedAux.eq_def]
    simp only [if_neg h1, if_neg h2]
    exact (Nat.le_succ p).trans ih

theorem readQuotedAux_len_le (quote : Char) (cs : List Char) (p0 l0 c0 : Nat) (acc0 : String) :
    ((readQuotedAux quote cs p0 l0 c0 acc0).2).remaining.length ≤ cs.length := by
  induction cs, p0, l0, c0, acc0 using readQuotedAux.induct quote with
  | case1 p l c acc => simp [readQuotedAux]
  | case2 rest p l c acc => rw [readQuotedAux.eq_def]; simp
  | case3 p l c acc h => rw [readQuotedAux.eq_def]; simp [h]
  | case4 p l c acc c1 rest lc hq ih =>
    rw [readQuotedAux.eq_def]
    simp only [if_neg hq, if_pos rfl, List.length_cons]
    exact ih.trans (by omega)
  | case5 ch rest p l c acc h1 h2 lc ih =>
    rw [readQuotedAux.eq_def]
    simp only [if_neg h1, if_neg h2, List.length_cons]
    exact ih.trans (by omega)

theorem readVarBraceAux_pos_le (cs : List Char) :
    ∀ p l c acc, p ≤ ((readVarBraceAux cs p l c acc).2).pos := by
  induction cs with
  | nil => intro p l c acc; simp [readVarBraceAux]
  | cons ch rest ih =>
    intro p l c acc
    simp only [readVarBraceAux]
    split
    · exact Nat.le_refl p
    · exact (Nat.le_succ p).trans (ih _ _ _ _)

theorem readVarBraceAux_len_le (cs : List Char) :
    ∀ p l c acc, ((readVarBraceAux cs p l c acc).2).remaining.length ≤ cs.length := by
  induction cs with
  | nil => intro p l c acc; simp [readVarBraceAux]
  | cons ch rest ih =>
    intro p l c acc
    simp only [readVarBraceAux]
    split
    · exact Nat.le_refl _
    · exact (ih _ _ _ _).trans (Nat.le_succ _)

theorem readWordCharsAux_pos_le (cs : List Char) :
    ∀ p l c acc, p ≤ ((readWordCharsAux cs p l c acc).2).pos := by
  induction cs with
  | nil => intro p l c acc; simp [readWordCharsAux]
  | cons ch rest ih =>
    intro p l c acc
    simp only [readWordCharsAux]
    split
    · exact (Nat.le_succ p).trans (ih _ _ _ _)
    · exact Nat.le_refl p

theorem readWordCharsAux_len_le (cs : List Char) :
    ∀ p l c acc, ((readWordCharsAux cs p l c acc).2).remaining.length ≤ cs.length := by
  induction cs with
  | nil => intro p l c acc; simp [readWordCharsAux]
  | cons ch rest ih =>
    intro p l c acc
    simp only [readWordCharsAux]
    split
    · exact (ih _ _ _ _).trans (Nat.le_succ _)
    · exact Nat.le_refl _

theorem tkAdvance_cons (ch : Char) (rest : List Char) (p l c : Nat) :
    tkAdvance ⟨ch :: rest, p, l, c⟩ =
      ⟨rest, p + 1, (lineColAfter ch l c).1, (lineColAfter ch l c).2⟩ := rfl

theorem tkAdvance_len_le (s : TkState) :
    (tkAdvance s).remaining.length ≤ s.remaining.length := by
  rcases s with ⟨rem, p, l, c⟩
  cases rem <;> simp [tkAdvance]

/-- Facts about one emitted token: its span ends at the new cursor, and the
FOR/WHILE keyword kinds carry exactly their reserved lexemes. -/
def TokFacts (tok : Token) (s' : TkState) : Prop :=
  tok.position.endPos = s'.pos ∧
  (tok.type = .FOR → tok.value = "for") ∧
  (tok.type = .WHILE → tok.value = "while")

/-- Postcondition of one scanner branch starting at cursor `p`: the cursor
does not move backwards, the unconsumed suffix shrinks to at most `bound`,
and any emitted token satisfies `TokFacts`. -/
def StepOk (bound : Nat) (p : Nat) (r : Option Token × TkState) : Prop :=
  p ≤ r.2.pos ∧ r.2.remaining.length ≤ bound ∧
  ∀ tok s', r = (some tok, s') → TokFacts tok s'

theorem pairSome_inj {t0 tok : Token} {s0 s' : TkState}
    (h : ((some t0, s0) : Option Token × TkState) = (some tok, s')) : t0 = tok ∧ s0 = s' := by
  simp only [Prod.mk.injEq, Option.some.injEq] at h
  exact h

theorem tokFacts_create {ty : TokenType} {v : String} {sp : Position} {sX : TkState}
    (hFor : ty = .FOR → v = "for") (hWhile : ty = .WHILE → v = "while") :
    TokFacts (createToken ty v sp sX) sX :=
  ⟨rfl, hFor, hWhile⟩

theorem commentTok_ok (rest : List Char) (p l c : Nat) :
    StepOk rest.length p (commentTok rest p l c) := by
  refine ⟨(Nat.le_succ p).trans (readCommentAux_pos_le rest (p + 1) l (c + 1) ""),
    readCommentAux_len_le rest (p + 1) l (c + 1) "", ?_⟩
  intro tok s' h
  obtain ⟨ht, hs⟩ := pairSome_inj h
  subst ht; subst hs
  exact tokFacts_create (fun hh => absurd hh (by decide)) (fun hh => absurd hh (by decide))

theorem oneCharTok_ok (ty : TokenType) (v : String) (ch : Char) (rest : List Char) (p l c : Nat)
    (hFor : ty = .FOR → v = "for") (hWhile : ty = .WHILE → v = "while") :
    StepOk rest.length p (oneCharTok ty v ch rest p l c) := by
  refine ⟨?_, ?_, ?_⟩
  · simp [oneCharTok, tkAdvance_cons]
  · simp [oneCharTok, tkAdvance_cons]
  · intro tok s' h
    obtain ⟨ht, hs⟩ := pairSome_inj h
    subst ht; subst hs
    exact tokFacts_create hFor hWhile

theorem closeDelim_pos_le (q : Char) (st : TkState) : st.pos ≤ (closeDelim q st).pos := by
  unfold closeDelim
  split
  · split
    · exact tkAdvance_pos_le st
    · exact Nat.le_refl _
  · exact Nat.le_refl _

theorem closeDelim_len_le (q : Char) (st : TkState) :
    (closeDelim q st).remaining.length ≤ st.remaining.length := by
  unfold closeDelim
  split
  · split
    · exact tkAdvance_len_le st
    · exact Nat.le_refl _
  · exact Nat.le_refl _

theorem twoCharTok_ok (ty1 : TokenType) (v1 : String) (nx : Char) (ty2 : TokenType) (v2 : String)
    (ch : Char) (rest : List Char) (p l c : Nat)
    (hFor1 : ty1 = .FOR → v1 = "for") (hWhile1 : ty1 = .WHILE → v1 = "while")
    (hFor2 : ty2 = .FOR → v2 = "for") (hWhile2 : ty2 = .WHILE → v2 = "while") :
    StepOk rest.length p (twoCharTok ty1 v1 nx ty2 v2 ch rest p l c) := by
  cases rest with
  | nil =>
    refine ⟨?_, ?_, ?_⟩
    · show p ≤ (tkAdvance ⟨[ch], p, l, c⟩).pos
      simp [tkAdvance]
    · show (tkAdvance ⟨[ch], p, l, c⟩).remaining.length ≤ 0
      simp [tkAdvance]
    · intro tok s' h
      simp only [twoCharTok, tkAdvance_cons] at h
      obtain ⟨ht, hs⟩ := pairSome_inj h
      subst ht; subst hs
      exact tokFacts_create hFor1 hWhile1
  | cons c2 rest' =>
    by_cases hc2 : c2 = nx
    · have h2 : (twoCharTok ty1 v1 nx ty2 v2 ch (c2 :: rest') p l c).2 =
          tkAdvance (tkAdvance ⟨ch :: c2 :: rest', p, l, c⟩) := by
        simp [twoCharTok, tkAdvance_cons, hc2]
      refine ⟨?_, ?_, ?_⟩
      · rw [h2, tkAdvance_cons, tkAdvance_cons]
        exact Nat.le_add_right p 2
      · rw [h2, tkAdvance_cons, tkAdvance_cons]
        simp
      · intro tok s' h
        simp only [twoCharTok, tkAdvance_cons, if_pos hc2] at h
        obtain ⟨ht, hs⟩ := pairSome_inj h
        subst ht; subst hs
        exact tokFacts_create hFor2 hWhile2
    · have h2 : (twoCharTok ty1 v1 nx ty2 v2 ch (c2 :: rest') p l c).2 =
          tkAdvance ⟨ch :: c2 :: rest', p, l, c⟩ := by
        simp [twoCharTok, tkAdvance_cons, hc2]
      refine ⟨?_, ?_, ?_⟩
      · rw [h2]
        simp [tkAdvance_cons]
      · rw [h2]
        simp [tkAdvance_cons]
      · intro tok s' h
        simp only [twoCharTok, tkAdvance_cons, if_neg hc2] at h
        obtain ⟨ht, hs⟩ := pairSome_inj h
        subst ht; subst hs
        exact tokFacts_create hFor1 hWhile1

theorem quotedTok_ok (quote : Char) (rest : List Char) (p l c : Nat) :
    StepOk rest.length p (quotedTok quote rest p l c) := by
  have hpos := readQuotedAux_pos_le quote rest (p + 1) l (c + 1) ""
  have hlen := readQuotedAux_len_le quote rest (p + 1) l (c + 1) ""
  have hpos2 := closeDelim_pos_le quote (readQuotedAux quote rest (p + 1) l (c + 1) "").2
  have hlen2 := closeDelim_len_le quote (readQuotedAux quote rest (p + 1) l (c + 1) "").2
  refine ⟨?_, ?_, ?_⟩
  · show p ≤ (closeDelim quote (readQuotedAux quote rest (p + 1) l (c + 1) "").2).pos
    omega
  · show (closeDelim quote (readQuotedAux quote rest (p + 1) l (c + 1) "").2).remaining.length ≤
      rest.length
    omega
  · intro tok s' h
    simp only [quotedTok] at h
    obtain ⟨ht, hs⟩ := pairSome_inj h
    subst ht; subst hs
    exact tokFacts_create (fun hh => absurd hh (by decide)) (fun hh => absurd hh (by decide))

theorem getKeywordType_getD_FOR {v : String} (h : (getKeywordType v).getD .WORD = .FOR) :
    v = "for" := by
  unfold getKeywordType at h
  split_ifs at h <;> simp_all

theorem getKeywordType_getD_WHILE {v : String} (h : (getKeywordType v).getD .WORD = .WHILE) :
    v = "while" := by
  unfold getKeywordType at h
  split_ifs at h <;> simp_all

theorem varTok_ok (rest : List Char) (p l c : Nat) :
    StepOk rest.length p (varTok rest p l c) := by
  rw [varTok.eq_def]
  split
  · next rest2 =>
    have hp := readVarBraceAux_pos_le rest2 (p + 2) l (c + 2) ""
    have hl := readVarBraceAux_len_le rest2 (p + 2) l (c + 2) ""
    have hp2 := closeDelim_pos_le '}' (readVarBraceAux rest2 (p + 2) l (c + 2) "").2
    have hl2 := closeDelim_len_le '}' (readVarBraceAux rest2 (p + 2) l (c + 2) "").2
    refine ⟨?_, ?_, ?_⟩
    · show p ≤ (closeDelim '}' (readVarBraceAux rest2 (p + 2) l (c + 2) "").2).pos
      omega
    · show (closeDelim '}' (readVarBraceAux rest2 (p + 2) l (c + 2) "").2).remaining.length ≤
        ('{' :: rest2).length
      simp only [List.length_cons]
      omega
    · intro tok s' h
      obtain ⟨ht, hs⟩ := pairSome_inj h
      subst ht; subst hs
      exact tokFacts_create (fun hh => absurd hh (by decide)) (fun hh => absurd hh (by decide))
  · have hwp := readWordCharsAux_pos_le rest (p + 1) l (c + 1) ""
    have hwl := readWordCharsAux_len_le rest (p + 1) l (c + 1) ""
    refine ⟨?_, ?_, ?_⟩
    · show p ≤ ((readWordCharsAux rest (p + 1) l (c + 1) "").2).pos
      omega
    · show ((readWordCharsAux rest (p + 1) l (c + 1) "").2).remaining.length ≤ rest.length
      omega
    · intro tok s' h
      obtain ⟨ht, hs⟩ := pairSome_inj h
      subst ht; subst hs
      exact tokFacts_create (fun hh => absurd hh (by decide)) (fun hh => absurd hh (by decide))

theorem wordTok_ok (ch : Char) (rest : List Char) (p l c : Nat) :
    StepOk rest.length p (wordTok ch rest p l c) := by
  by_cases hw : isWordChar ch
  · have h1 : readWordCharsAux (ch :: rest) p l c "" =
        readWordCharsAux rest (p + 1) l (c + 1) ("".push ch) := by
      simp [readWordCharsAux, hw]
    have hp := readWordCharsAux_pos_le rest (p + 1) l (c + 1) ("".push ch)
    have hl := readWordCharsAux_len_le rest (p + 1) l (c + 1) ("".push ch)
    have h2 : (wordTok ch rest p l c).2 =
        (readWordCharsAux rest (p + 1) l (c + 1) ("".push ch)).2 := by
      simp [wordTok, hw, h1]
    refine ⟨?_, ?_, ?_⟩
    · rw [h2]
      omega
    · rw [h2]
      exact hl
    · intro tok s' h
      simp only [wordTok, if_pos hw] at h
      obtain ⟨ht, hs⟩ := pairSome_inj h
      subst ht; subst hs
      exact tokFacts_create (fun hh => getKeywordType_getD_FOR hh)
        (fun hh => getKeywordType_getD_WHILE hh)
  · have h2 : (wordTok ch rest p l c).2 = tkAdvance ⟨ch :: rest, p, l, c⟩ := by
      simp [wordTok, hw]
    refine ⟨?_, ?_, ?_⟩
    · rw [h2]
      simp [tkAdvance_cons]
    · rw [h2]
      simp [tkAdvance_cons]
    · intro tok s' h
      simp only [wordTok, if_neg hw, tkAdvance_cons] at h
      obtain ⟨ht, hs⟩ := pairSome_inj h
      subst ht; subst hs
      exact tokFacts_create (fun hh => absurd hh (by decide)) (fun hh => absurd hh (by decide))

theorem scanTok_nil_ok (p l c : Nat) : StepOk 0 p (scanTok ⟨[], p, l, c⟩) := by
  refine ⟨Nat.le_refl _, Nat.le_refl _, ?_⟩
  intro tok s' h
  rw [show scanTok ⟨[], p, l, c⟩ = (none, ⟨[], p, l, c⟩) from rfl] at h
  injection h with h1 h2
  exact Option.noConfusion h1

theorem scanTok_cons_ok (ch : Char) (rest : List Char) (p l c : Nat) :
    StepOk rest.length p (scanTok ⟨ch :: rest, p, l, c⟩) := by
  show StepOk rest.length p
    (if ch = '#' then commentTok rest p l c
     else if ch = '\n' then oneCharTok .NEWLINE "\n" ch rest p l c
     else if ch = '|' then twoCharTok .PIPE "|" '|' .OR "||" ch rest p l c
     else if ch = '&' then twoCharTok .AMPERSAND "&" '&' .AND "&&" ch rest p l c
     else if ch = '>' then twoCharTok .REDIRECT_OUT ">" '>' .REDIRECT_APPEND ">>" ch rest p l c
     else if ch = '<' then oneCharTok .REDIRECT_IN "<" ch rest p l c
     else if ch = ';' then oneCharTok .SEMICOLON ";" ch rest p l c
     else if ch = '(' then oneCharTok .LPAREN "(" ch rest p l c
     else if ch = ')' then oneCharTok .RPAREN ")" ch rest p l c
     else if ch = '{' then oneCharTok .LBRACE "\x7b" ch rest p l c
     else if ch = '}' then oneCharTok .RBRACE "\x7d" ch rest p l c
     else if ch = '"' ∨ ch = '\'' then quotedTok ch rest p l c
     else if ch = '$' then varTok rest p l c
     else wordTok ch rest p l c)
  by_cases h1 : ch = '#'
  · rw [if_pos h1]; exact commentTok_ok rest p l c
  rw [if_neg h1]
  by_cases h2 : ch = '\n'
  · rw [if_pos h2]; exact oneCharTok_ok _ _ _ _ _ _ _ (by decide) (by decide)
  rw [if_neg h2]
  by_cases h3 : ch = '|'
  · rw [if_pos h3]
    exact twoCharTok_ok _ _ _ _ _ _ _ _ _ _ (by decide) (by decide) (by decide) (by decide)
  rw [if_neg h3]
  by_cases h4 : ch = '&'
  · rw [if_pos h4]
    exact twoCharTok_ok _ _ _ _ _ _ _ _ _ _ (by decide) (by decide) (by decide) (by decide)
  rw [if_neg h4]
  by_cases h5 : ch = '>'
  · rw [if_pos h5]
    exact twoCharTok_ok _ _ _ _ _ _ _ _ _ _ (by decide) (by decide) (by decide) (by decide)
  rw [if_neg h5]
  by_cases h6 : ch = '<'
  · rw [if_pos h6]; exact oneCharTok_ok _ _ _ _ _ _ _ (by decide) (by decide)
  rw [if_neg h6]
  by_cases h7 : ch = ';'
  · rw [if_pos h7]; exact oneCharTok_ok _ _ _ _ _ _ _ (by decide) (by decide)
  rw [if_neg h7]
  by_cases h8 : ch = '('
  · rw [if_pos h8]; exact oneCharTok_ok _ _ _ _ _ _ _ (by decide) (by decide)
  rw [if_neg h8]
  by_cases h9 : ch = ')'
  · rw [if_pos h9]; exact oneCharTok_ok _ _ _ _ _ _ _ (by decide) (by decide)
  rw [if_neg h9]
  by_cases h10 : ch = '{'
  · rw [if_pos h10]; exact oneCharTok_ok _ _ _ _ _ _ _ (by decide) (by decide)
  rw [if_neg h10]
  by_cases h11 : ch = '}'
  · rw [if_pos h11]; exact oneCharTok_ok _ _ _ _ _ _ _ (by decide) (by decide)
  rw [if_neg h11]
  by_cases h12 : ch = '"' ∨ ch = '\''
  · rw [if_pos h12]; exact quotedTok_ok ch rest p l c
  rw [if_neg h12]
  by_cases h13 : ch = '$'
  · rw [if_pos h13]; exact varTok_ok rest p l c
  rw [if_neg h13]
  exact wordTok_ok ch rest p l c

/-- Combined postcondition of one scanner step (ast.ts `Tokenizer.nextToken`):
cursor monotone, suffix non-increasing, strict progress on nonempty input, and
every emitted token satisfies `TokFacts`. -/
theorem nextToken_ok (s : TkState) :
    s.pos ≤ (nextToken s).2.pos ∧
    (nextToken s).2.remaining.length ≤ s.remaining.length ∧
    (s.remaining ≠ [] → (nextToken s).2.remaining.length < s.remaining.length) ∧
    ∀ tok s', nextToken s = (some tok, s') → TokFacts tok s' := by
  unfold nextToken
  have hpos := skipWSAux_pos_le s.remaining s.pos s.line s.column
  have hlen := skipWSAux_len_le s.remaining s.pos s.line s.column
  rcases hww : skipWSAux s.remaining s.pos s.line s.column with ⟨wrem, wp, wl, wc⟩
  rw [hww] at hpos hlen
  cases wrem with
  | nil =>
    obtain ⟨h1, h2, h3⟩ := scanTok_nil_ok wp wl wc
    refine ⟨hpos.trans h1, ?_, ?_, h3⟩
    · omega
    · intro hne
      have : 1 ≤ s.remaining.length := by
        cases hrm : s.remaining
        · exact absurd hrm hne
        · simp
      omega
  | cons ch wrest =>
    obtain ⟨h1, h2, h3⟩ := scanTok_cons_ok ch wrest wp wl wc
    refine ⟨hpos.trans h1, ?_, ?_, h3⟩
    · simp only [List.length_cons] at hlen
      omega
    · intro _
      simp only [List.length_cons] at hlen
      omega

theorem tokenizeAux_succ_cons {fuel : Nat} {s : TkState} (h : s.remaining ≠ []) :
    tokenizeAux (fuel + 1) s =
      ((nextToken s).1.toList ++ (tokenizeAux fuel (nextToken s).2).1,
        (tokenizeAux fuel (nextToken s).2).2) := by
  rw [tokenizeAux.eq_def]
  cases hrm : s.remaining with
  | nil => exact absurd hrm h
  | cons c cs => simp [hrm]

/-- Invariants of the scanner main loop: the cursor is monotone, every emitted
token's end offset lies between the starting and final cursors, end offsets
are pairwise monotone in emission order, and FOR/WHILE tokens carry their
exact reserved lexemes. -/
theorem tokenizeAux_ok (fuel : Nat) : ∀ (s : TkState),
    s.pos ≤ (tokenizeAux fuel s).2.pos ∧
    (∀ t ∈ (tokenizeAux fuel s).1, s.pos ≤ t.position.endPos) ∧
    (∀ t ∈ (tokenizeAux fuel s).1, t.position.endPos ≤ (tokenizeAux fuel s).2.pos) ∧
    List.Pairwise (fun a b => a.position.endPos ≤ b.position.endPos) (tokenizeAux fuel s).1 ∧
    (∀ t ∈ (tokenizeAux fuel s).1,
      (t.type = .FOR → t.value = "for") ∧ (t.type = .WHILE → t.value = "while")) := by
  induction fuel with
  | zero =>
    intro s
    simp [tokenizeAux]
  | succ fuel ih =>
    intro s
    by_cases hrm : s.remaining = []
    · rw [tokenizeAux.eq_def]
      simp [hrm]
    · rw [tokenizeAux_succ_cons hrm]
      obtain ⟨hp, -, hprog, hfacts⟩ := nextToken_ok s
      obtain ⟨ih1, ih2, ih3, ih4, ih5⟩ := ih (nextToken s).2
      cases hr : (nextToken s).1 with
      | none =>
        simp only [Option.toList_none, List.nil_append]
        exact ⟨hp.trans ih1, fun t ht => hp.trans (ih2 t ht), ih3, ih4, ih5⟩
      | some tok =>
        have hpair : nextToken s = (some tok, (nextToken s).2) := by
          rw [← hr]
        have htf := hfacts tok (nextToken s).2 hpair
        obtain ⟨hend, hfor, hwhile⟩ := htf
        simp only [Option.toList_some, List.singleton_append]
        refine ⟨hp.trans ih1, ?_, ?_, ?_, ?_⟩
        · intro t ht
          rcases List.mem_cons.mp ht with h1 | h1
          · subst h1
            omega
          · exact hp.trans (ih2 t h1)
        · intro t ht
          rcases List.mem_cons.mp ht with h1 | h1
          · subst h1
            omega
          · exact ih3 t h1
        · exact List.pairwise_cons.mpr ⟨fun t ht => by have := ih2 t ht; omega, ih4⟩
        · intro t ht
          rcases List.mem_cons.mp ht with h1 | h1
          · subst h1
            exact ⟨hfor, hwhile⟩
          · exact ih5 t h1

/-- With fuel at least the number of unconsumed characters, the scanner main
loop consumes the whole input. -/
theorem tokenizeAux_consumes (fuel : Nat) : ∀ (s : TkState),
    s.remaining.length ≤ fuel → (tokenizeAux fuel s).2.remaining = [] := by
  induction fuel with
  | zero =>
    intro s h
    have : s.remaining = [] := List.length_eq_zero.mp (Nat.le_zero.mp h)
    simp [tokenizeAux, this]
  | succ fuel ih =>
    intro s h
    by_cases hrm : s.remaining = []
    · rw [tokenizeAux.eq_def]
      simp [hrm]
    · rw [tokenizeAux_succ_cons hrm]
      obtain ⟨-, -, hprog, -⟩ := nextToken_ok s
      exact ih (nextToken s).2 (by have := hprog hrm; omega)

/-- The token-list invariants assumed by the syntax builder, all established
by `tokenize`: a non-EOF token is never last, end offsets are monotone between
consecutive tokens, and FOR/WHILE tokens carry their reserved lexemes. -/
structure TokInv (ts : List Token) : Prop where
  eofGuard : ∀ i tok, ts[i]? = some tok → tok.type ≠ .EOF → i + 1 < ts.length
  monoEnd : ∀ i ti tj, ts[i]? = some ti → ts[i + 1]? = some tj →
    ti.position.endPos ≤ tj.position.endPos
  kwFor : ∀ tok ∈ ts, tok.type = .FOR → tok.value = "for"
  kwWhile : ∀ tok ∈ ts, tok.type = .WHILE → tok.value = "while"

theorem tokenize_eq (input : String) :
    tokenize input =
      (tokenizeAux (input.toList.length + 1) (initTkState input)).1 ++
        [createToken .EOF "" ((tokenizeAux (input.toList.length + 1) (initTkState input)).2).getPosition
          (tokenizeAux (input.toList.length + 1) (initTkState input)).2] := rfl

theorem tokenize_inv (input : String) : TokInv (tokenize input) := by
  obtain ⟨-, -, hup, hpw, hkw⟩ :=
    tokenizeAux_ok (input.toList.length + 1) (initTkState input)
  rw [tokenize_eq input]
  set l := (tokenizeAux (input.toList.length + 1) (initTkState input)).1 with hl
  set fin := (tokenizeAux (input.toList.length + 1) (initTkState input)).2 with hfin
  set eofTok := createToken .EOF "" fin.getPosition fin with heof
  have heofty : eofTok.type = .EOF := rfl
  have heofend : eofTok.position.endPos = fin.pos := rfl
  have hpwAll : List.Pairwise (fun a b => a.position.endPos ≤ b.position.endPos)
      (l ++ [eofTok]) := by
    rw [List.pairwise_append]
    refine ⟨hpw, List.pairwise_singleton _ _, ?_⟩
    intro a ha b hb
    have hb' : b = eofTok := by simpa using hb
    subst hb'
    rw [heofend]
    exact hup a ha
  constructor
  · intro i tok hi hne
    obtain ⟨hilt, hget⟩ := List.getElem?_eq_some.mp hi
    by_cases hcmp : i + 1 < (l ++ [eofTok]).length
    · exact hcmp
    · exfalso
      have hlen : (l ++ [eofTok]).length = l.length + 1 := by simp
      have : i = l.length := by omega
      subst this
      have : (l ++ [eofTok])[l.length]? = some eofTok := by
        simp [List.getElem?_concat_length]
      rw [hi] at this
      have : tok = eofTok := by simpa using this
      subst this
      exact hne heofty
  · intro i ti tj hi hj
    obtain ⟨hilt, hgi⟩ := List.getElem?_eq_some.mp hi
    obtain ⟨hjlt, hgj⟩ := List.getElem?_eq_some.mp hj
    have := (List.pairwise_iff_getElem.mp hpwAll) i (i + 1) hilt hjlt (by omega)
    rw [hgi, hgj] at this
    exact this
  · intro tok hmem hty
    rcases List.mem_append.mp hmem with h1 | h1
    · exact (hkw tok h1).1 hty
    · have : tok = eofTok := by simpa using h1
      subst this
      exact absurd hty (by rw [heofty]; decide)
  · intro tok hmem hty
    rcases List.mem_append.mp hmem with h1 | h1
    · exact (hkw tok h1).2 hty
    · have : tok = eofTok := by simpa using h1
      subst this
      exact absurd hty (by rw [heofty]; decide)

/-! ### Builder state lemmas -/

/-- Builder state invariant: the token list satisfies the scanner invariants
and the cursor is strictly inside the list (guaranteed by the terminal EOF
token, which the cursor can never pass). -/
def PInv (s : PState) : Prop := TokInv s.tokens ∧ s.position < s.tokens.length

theorem PRes.bind_eq_ok {α β : Type} {x : PRes α} {f : α → PState → PRes β} {b : β} {s' : PState} :
    x.bind f = .ok b s' ↔ ∃ a s₁, x = .ok a s₁ ∧ f a s₁ = .ok b s' := by
  cases x with
  | ok a s =>
    simp only [PRes.bind, PRes.ok.injEq]
    constructor
    · intro h
      exact ⟨a, s, ⟨rfl, rfl⟩, h⟩
    · rintro ⟨a', s₁, ⟨rfl, rfl⟩, h⟩
      exact h
  | err e => simp [PRes.bind]
  | fuelOut => simp [PRes.bind]

theorem check_lt {t : TokenType} {s : PState} (h : check t s = true) :
    s.position < s.tokens.length := by
  obtain ⟨tok, htok, -⟩ := check_true_iff.mp h
  obtain ⟨hlt, -⟩ := List.getElem?_eq_some.mp htok
  exact hlt

theorem check_false_type {t : TokenType} {s : PState} {tok : Token}
    (h : check t s = false) (htok : currentToken s = some tok) : tok.type ≠ t := by
  unfold check at h
  rw [htok] at h
  simpa using h

theorem isAtEndP_false_of_check {t : TokenType} {s : PState}
    (ht : t ≠ .EOF) (h : check t s = true) : isAtEndP s = false := by
  have hlt := check_lt h
  unfold isAtEndP
  simp only [Bool.or_eq_false_iff]
  refine ⟨by simp; omega, check_false_of_check_true h (Ne.symm ht)⟩

theorem advanceT_not_end {s : PState} (h : isAtEndP s = false) :
    advanceT s = (⟨s.tokens, s.position + 1⟩, s.tokens[s.position]?) := by
  unfold advanceT
  rw [h]
  simp

theorem advanceT_end {s : PState} (h : isAtEndP s = true) :
    advanceT s = (s, if s.position = 0 then none else s.tokens[s.position - 1]?) := by
  simp only [advanceT, h, if_true]

theorem advanceS_tokens (s : PState) : (advanceS s).tokens = s.tokens := by
  unfold advanceS advanceT
  split <;> rfl

theorem advanceS_pos_le (s : PState) : s.position ≤ (advanceS s).position := by
  unfold advanceS advanceT
  split <;> simp

theorem advanceS_not_end {s : PState} (h : isAtEndP s = false) :
    advanceS s = ⟨s.tokens, s.position + 1⟩ := by
  unfold advanceS
  rw [advanceT_not_end h]

theorem isAtEndP_false_elim {s : PState} (h : isAtEndP s = false) :
    s.position < s.tokens.length ∧
      ∃ tok, s.tokens[s.position]? = some tok ∧ tok.type ≠ .EOF := by
  unfold isAtEndP at h
  rw [Bool.or_eq_false_iff] at h
  obtain ⟨h1, h2⟩ := h
  have hlt : s.position < s.tokens.length := by
    have := of_decide_eq_false h1
    omega
  obtain ⟨tok, htok⟩ : ∃ tok, s.tokens[s.position]? = some tok :=
    ⟨s.tokens[s.position], List.getElem?_eq_getElem hlt⟩
  exact ⟨hlt, tok, htok, check_false_type h2 htok⟩

theorem PInv_advanceS {s : PState} (hinv : PInv s) : PInv (advanceS s) := by
  cases he : isAtEndP s with
  | true =>
    have : advanceS s = s := by
      unfold advanceS advanceT
      rw [he]
      simp
    rw [this]
    exact hinv
  | false =>
    rw [advanceS_not_end he]
    obtain ⟨hlt, tok, htok, hne⟩ := isAtEndP_false_elim he
    exact ⟨hinv.1, hinv.1.eofGuard s.position tok htok hne⟩

theorem consume_ok {t : TokenType} {msg : String} {s : PState} {tok : Token} {s' : PState}
    (ht : t ≠ .EOF) (h : consume t msg s = .ok tok s') :
    s'.tokens = s.tokens ∧ s'.position = s.position + 1 ∧
    s.tokens[s.position]? = some tok ∧ tok.type = t ∧ (TokInv s.tokens → PInv s') := by
  unfold consume at h
  by_cases hc : check t s = true
  · rw [if_pos hc] at h
    have hend := isAtEndP_false_of_check ht hc
    unfold advTok at h
    rw [advanceT_not_end hend] at h
    obtain ⟨tok0, htok0, hty0⟩ := check_true_iff.mp hc
    rw [show currentToken s = s.tokens[s.position]? from rfl] at htok0
    rw [htok0] at h
    cases h
    refine ⟨rfl, rfl, htok0, hty0, fun htinv => ⟨htinv, ?_⟩⟩
    exact htinv.eofGuard s.position tok htok0 (by rw [hty0]; exact ht)
  · rw [if_neg hc] at h
    exact PRes.noConfusion h

/-! ### Span helpers -/

theorem posCovers_token {ts : List Token} {a : Nat} {tok : Token}
    (h : ts[a]? = some tok) : posCovers ts a (a + 1) (some tok.position) := by
  intro q hq
  injection hq with hq
  subst hq
  refine ⟨tok, tok, by omega, h, ?_, Nat.le_refl _, Nat.le_refl _⟩
  simpa using h

theorem posCovers_none {ts : List Token} {a b : Nat} : posCovers ts a b none := by
  intro q hq
  exact Option.noConfusion hq

/-- The span produced by `getNodePosition` for a construct that started at
token index `i` and finished with the cursor at `s'.position` covers the
consumed token range `[i, s'.position)`: it starts at the start offset of the
first consumed token (index `i`) and ends at or after the end offset of the
last consumed token (index `s'.position - 1`), by end-offset monotonicity of
the token sequence. -/
theorem getNodePosition_covers {s' : PState} {ts : List Token} {i : Nat} {startTok : Token}
    (hts : s'.tokens = ts) (hinv : TokInv ts)
    (hstart : ts[i]? = some startTok)
    (hlt : i < s'.position) (hlt' : s'.position < ts.length) :
    posCovers ts i s'.position (getNodePosition (some startTok.position) s') := by
  intro q hq
  have hc : ts[s'.position]? = some ts[s'.position] := List.getElem?_eq_getElem hlt'
  have hcur : currentToken s' = some ts[s'.position] := by
    rw [show currentToken s' = s'.tokens[s'.position]? from rfl, hts]
    exact hc
  unfold getNodePosition at hq
  rw [hcur] at hq
  injection hq with hq
  subst hq
  have hj : s'.position - 1 < ts.length := by omega
  have hjc : ts[s'.position - 1]? = some ts[s'.position - 1] := List.getElem?_eq_getElem hj
  have hmono : (ts[s'.position - 1]).position.endPos ≤ (ts[s'.position]).position.endPos := by
    have : s'.position - 1 + 1 = s'.position := by omega
    exact hinv.monoEnd (s'.position - 1) _ _ hjc (by rw [this]; exact hc)
  refine ⟨startTok, ts[s'.position - 1], hlt, hstart, hjc, Nat.le_refl _, ?_⟩
  by_cases hz : (ts[s'.position]).position.endPos = 0
  · simp only [hz, if_pos rfl]
    omega
  · simp only [if_neg hz]
    exact hmono

/-! ### Combined tree invariant -/

/-- All tree invariants of one statement built over the token interval
`[a, b)`: pipeline lengths, absent pipeline positions, loop kinds, and span
coverage of the consumed token intervals. -/
def goodStmt (ts : List Token) (a b : Nat) (st : Statement) : Prop :=
  stmtAll pipeLenP st = true ∧ stmtAll pipePosP st = true ∧
    stmtAll loopKindP st = true ∧ stmtCovers ts a b st

def goodStmts (ts : List Token) (a b : Nat) (l : List Statement) : Prop :=
  stmtsAll pipeLenP l = true ∧ stmtsAll pipePosP l = true ∧
    stmtsAll loopKindP l = true ∧ stmtsCovers ts a b l

theorem stmtsCovers_mono {ts : List Token} {a b a2 b2 : Nat}
    (ha : a2 ≤ a) (hb : b ≤ b2) :
    ∀ l, stmtsCovers ts a b l → stmtsCovers ts a2 b2 l := by
  intro l
  induction l with
  | nil =>
    intro h
    trivial
  | cons st rest ih =>
    intro h
    obtain ⟨⟨a3, b3, ha3, hb3, hc⟩, hrest⟩ := h
    exact ⟨⟨a3, b3, by omega, by omega, hc⟩, ih hrest⟩

theorem goodStmts_mono {ts : List Token} {a b a2 b2 : Nat} {l : List Statement}
    (ha : a2 ≤ a) (hb : b ≤ b2) (h : goodStmts ts a b l) : goodStmts ts a2 b2 l :=
  ⟨h.1, h.2.1, h.2.2.1, stmtsCovers_mono ha hb l h.2.2.2⟩

theorem goodStmts_nil {ts : List Token} {a b : Nat} : goodStmts ts a b [] :=
  ⟨rfl, rfl, rfl, trivial⟩

theorem goodStmts_cons {ts : List Token} {a b a2 b2 : Nat} {st : Statement}
    {l : List Statement} (ha : a ≤ a2) (hb : b2 ≤ b)
    (h1 : goodStmt ts a2 b2 st) (h2 : goodStmts ts a b l) : goodStmts ts a b (st :: l) := by
  obtain ⟨x1, x2, x3, x4⟩ := h1
  obtain ⟨y1, y2, y3, y4⟩ := h2
  refine ⟨?_, ?_, ?_, ?_⟩
  · simp [stmtsAll, x1, y1]
  · simp [stmtsAll, x2, y2]
  · simp [stmtsAll, x3, y3]
  · exact ⟨⟨a2, b2, ha, hb, x4⟩, y4⟩

theorem goodStmt_command {ts : List Token} {a b : Nat} {c : Cmd}
    (h : cmdCovers ts a b c) : goodStmt ts a b (.command c) := by
  refine ⟨?_, ?_, ?_, ?_⟩
  · simp [stmtAll, pipeLenP]
  · simp [stmtAll, pipePosP]
  · simp [stmtAll, loopKindP]
  · exact h

theorem goodStmt_pipeline {ts : List Token} {a b : Nat} {cmds : List Cmd}
    (hlen : 2 ≤ cmds.length)
    (hspan : ∀ c ∈ cmds, ∃ a2 b2, a ≤ a2 ∧ b2 ≤ b ∧ cmdCovers ts a2 b2 c) :
    goodStmt ts a b (.pipeline cmds none) := by
  refine ⟨?_, ?_, ?_, ?_⟩
  · simp [stmtAll, pipeLenP, hlen]
  · simp [stmtAll, pipePosP]
  · simp [stmtAll, loopKindP]
  · exact ⟨posCovers_none, hspan⟩

theorem goodStmt_assignment {ts : List Token} {a b : Nat} {n : String} {v : Expression}
    {pos : Option Position} (hpos : posCovers ts a b pos)
    (hv : ∃ a2 b2, a ≤ a2 ∧ b2 ≤ b ∧ exprCovers ts a2 b2 v) :
    goodStmt ts a b (.assignment n v pos) := by
  refine ⟨?_, ?_, ?_, ?_⟩
  · simp [stmtAll, pipeLenP]
  · simp [stmtAll, pipePosP]
  · simp [stmtAll, loopKindP]
  · exact ⟨hpos, hv⟩

theorem goodStmt_conditional {ts : List Token} {a b : Nat} {cond : Expression}
    {t : List Statement} {e : Option (List Statement)} {pos : Option Position}
    (hpos : posCovers ts a b pos)
    (hc : ∃ a2 b2, a ≤ a2 ∧ b2 ≤ b ∧ exprCovers ts a2 b2 cond)
    (ht : goodStmts ts a b t)
    (he : ∀ l, e = some l → goodStmts ts a b l) :
    goodStmt ts a b (.conditional cond t e pos) := by
  have heAll : optStmtsAll pipeLenP e = true ∧ optStmtsAll pipePosP e = true ∧
      optStmtsAll loopKindP e = true ∧ optCovers ts a b e := by
    cases e with
    | none => exact ⟨rfl, rfl, rfl, trivial⟩
    | some l =>
      obtain ⟨x1, x2, x3, x4⟩ := he l rfl
      refine ⟨?_, ?_, ?_, ?_⟩ <;> simp [optStmtsAll, optCovers, x1, x2, x3, x4]
  refine ⟨?_, ?_, ?_, ?_⟩
  · simp [stmtAll, pipeLenP, ht.1, heAll.1]
  · simp [stmtAll, pipePosP, ht.2.1, heAll.2.1]
  · simp [stmtAll, loopKindP, ht.2.2.1, heAll.2.2.1]
  · exact ⟨hpos, hc, ht.2.2.2, heAll.2.2.2⟩

theorem goodStmt_loop {ts : List Token} {a b : Nat} {k : String} {c : Option Expression}
    {v : Option String} {i : Option Expression} {bd : List Statement} {pos : Option Position}
    (hk : k = "for" ∨ k = "while") (hpos : posCovers ts a b pos)
    (hc : ∀ x, c = some x → ∃ a2 b2, a ≤ a2 ∧ b2 ≤ b ∧ exprCovers ts a2 b2 x)
    (hi : ∀ x, i = some x → ∃ a2 b2, a ≤ a2 ∧ b2 ≤ b ∧ exprCovers ts a2 b2 x)
    (hb : goodStmts ts a b bd) :
    goodStmt ts a b (.loop k c v i bd pos) := by
  refine ⟨?_, ?_, ?_, ?_⟩
  · simp [stmtAll, pipeLenP, hb.1]
  · simp [stmtAll, pipePosP, hb.2.1]
  · simp [stmtAll, loopKindP, hb.2.2.1, hk]
  · exact ⟨hpos, hc, hi, hb.2.2.2⟩

theorem goodStmt_funcDecl {ts : List Token} {a b : Nat} {n : String} {bd : List Statement}
    {pos : Option Position} (hpos : posCovers ts a b pos) (hb : goodStmts ts a b bd) :
    goodStmt ts a b (.funcDecl n bd pos) := by
  refine ⟨?_, ?_, ?_, ?_⟩
  · simp [stmtAll, pipeLenP, hb.1]
  · simp [stmtAll, pipePosP, hb.2.1]
  · simp [stmtAll, loopKindP, hb.2.2.1]
  · exact ⟨hpos, hb.2.2.2⟩

/-! ### Non-recursive builder function postconditions -/

theorem advTok_not_end {s : PState} {tok : Token} (hend : isAtEndP s = false)
    (htok : s.tokens[s.position]? = some tok) :
    advTok s = .ok tok ⟨s.tokens, s.position + 1⟩ := by
  unfold advTok
  rw [advanceT_not_end hend, htok]

theorem parseExpression_ok {s : PState} {e : Expression} {s' : PState}
    (h : parseExpression s = .ok e s') (hinv : PInv s) :
    s'.tokens = s.tokens ∧ s'.position = s.position + 1 ∧ PInv s' ∧
    exprCovers s.tokens s.position s'.position e := by
  unfold parseExpression at h
  by_cases h1 : check .WORD s = true ∨ check .QUOTED_STRING s = true
  · rw [if_pos h1] at h
    have hend : isAtEndP s = false := by
      rcases h1 with hh | hh
      · exact isAtEndP_false_of_check (by decide) hh
      · exact isAtEndP_false_of_check (by decide) hh
    obtain ⟨hlt, tok0, htok0, hne⟩ := isAtEndP_false_elim hend
    rw [advTok_not_end hend htok0] at h
    simp only [PRes.bind] at h
    cases h
    exact ⟨rfl, rfl, ⟨hinv.1, hinv.1.eofGuard _ _ htok0 hne⟩, posCovers_token htok0⟩
  · rw [if_neg h1] at h
    by_cases h2 : check .VARIABLE s = true
    · rw [if_pos h2] at h
      have hend := isAtEndP_false_of_check (by decide) h2
      obtain ⟨hlt, tok0, htok0, hne⟩ := isAtEndP_false_elim hend
      rw [advTok_not_end hend htok0] at h
      simp only [PRes.bind] at h
      cases h
      exact ⟨rfl, rfl, ⟨hinv.1, hinv.1.eofGuard _ _ htok0 hne⟩, posCovers_token htok0⟩
    · rw [if_neg h2] at h
      exact PRes.noConfusion h

theorem argsLoop_ok : ∀ {fuel : Nat} {s : PState} {args : List String} {s' : PState},
    argsLoop fuel s = .ok args s' → PInv s →
    s'.tokens = s.tokens ∧ s.position ≤ s'.position ∧ PInv s' := by
  intro fuel
  induction fuel with
  | zero => intro s args s' h _; exact PRes.noConfusion h
  | succ fuel ih =>
    intro s args s' h hinv
    simp only [argsLoop] at h
    by_cases h1 : check .WORD s = true ∨ check .QUOTED_STRING s = true
    · rw [if_pos h1] at h
      have hend : isAtEndP s = false := by
        rcases h1 with hh | hh
        · exact isAtEndP_false_of_check (by decide) hh
        · exact isAtEndP_false_of_check (by decide) hh
      obtain ⟨hlt, tok0, htok0, hne⟩ := isAtEndP_false_elim hend
      rw [PRes.bind_eq_ok] at h
      obtain ⟨tokx, s₀, hadv, h⟩ := h
      rw [advTok_not_end hend htok0] at hadv
      cases hadv
      rw [PRes.bind_eq_ok] at h
      obtain ⟨rest, s₁, hrec, hok⟩ := h
      cases hok
      have hinv1 : PInv ⟨s.tokens, s.position + 1⟩ :=
        ⟨hinv.1, hinv.1.eofGuard _ _ htok0 hne⟩
      obtain ⟨ht, hp, hi⟩ := ih hrec hinv1
      have ht' : s'.tokens = s.tokens := ht
      have hp' : s.position + 1 ≤ s'.position := hp
      exact ⟨ht', by omega, hi⟩
    · rw [if_neg h1] at h
      cases h
      exact ⟨rfl, Nat.le_refl _, hinv⟩

theorem parseCommand_ok {fuel : Nat} {s : PState} {cmd : Cmd} {s' : PState}
    (h : parseCommand fuel s = .ok cmd s') (hinv : PInv s) :
    s'.tokens = s.tokens ∧ s.position < s'.position ∧ PInv s' ∧
    cmdCovers s.tokens s.position s'.position cmd := by
  cases fuel with
  | zero => exact PRes.noConfusion h
  | succ fuel =>
    simp only [parseCommand] at h
    by_cases hc : check .WORD s = true
    · rw [if_pos hc] at h
      have hend := isAtEndP_false_of_check (by decide) hc
      obtain ⟨hlt, tok0, htok0, hne⟩ := isAtEndP_false_elim hend
      rw [PRes.bind_eq_ok] at h
      obtain ⟨tokx, s₀, hadv, h⟩ := h
      rw [advTok_not_end hend htok0] at hadv
      cases hadv
      rw [PRes.bind_eq_ok] at h
      obtain ⟨args, s₂, hargs, hok⟩ := h
      cases hok
      have hinv1 : PInv ⟨s.tokens, s.position + 1⟩ :=
        ⟨hinv.1, hinv.1.eofGuard _ _ htok0 hne⟩
      obtain ⟨ht2, hp2, hi2⟩ := argsLoop_ok hargs hinv1
      have ht2' : s'.tokens = s.tokens := ht2
      have hp2' : s.position + 1 ≤ s'.position := hp2
      refine ⟨ht2', by omega, hi2, ?_⟩
      show posCovers s.tokens s.position s'.position
        (getNodePosition ((currentToken s).map (·.position)) s')
      rw [show currentToken s = some tok0 from htok0]
      simp only [Option.map_some']
      exact getNodePosition_covers ht2' hinv.1 htok0 (by omega) (by rw [← ht2']; exact hi2.2)
    · rw [if_neg hc] at h
      exact PRes.noConfusion h

theorem pipeLoop_ok : ∀ {fuel : Nat} {cmds : List Cmd} {s : PState} {cmds' : List Cmd}
    {s' : PState},
    pipeLoop fuel cmds s = .ok cmds' s' → PInv s →
    s'.tokens = s.tokens ∧ s.position ≤ s'.position ∧ PInv s' ∧
    cmds.length ≤ cmds'.length ∧
    (∀ c ∈ cmds', c ∈ cmds ∨
      ∃ a2 b2, s.position ≤ a2 ∧ b2 ≤ s'.position ∧ cmdCovers s.tokens a2 b2 c) ∧
    (cmds'.length = cmds.length → s' = s) := by
  intro fuel
  induction fuel with
  | zero => intro cmds s cmds' s' h _; exact PRes.noConfusion h
  | succ fuel ih =>
    intro cmds s cmds' s' h hinv
    simp only [pipeLoop] at h
    by_cases hp : check .PIPE s = true
    · rw [if_pos hp] at h
      rw [PRes.bind_eq_ok] at h
      obtain ⟨c, s₂, hcmd, hrec⟩ := h
      have hend := isAtEndP_false_of_check (by decide) hp
      have hadv : advanceS s = ⟨s.tokens, s.position + 1⟩ := advanceS_not_end hend
      rw [hadv] at hcmd
      have hinv1 : PInv ⟨s.tokens, s.position + 1⟩ := by
        have h0 := PInv_advanceS hinv
        rwa [hadv] at h0
      obtain ⟨ht1, hp1, hi1, hspan1⟩ := parseCommand_ok hcmd hinv1
      obtain ⟨ht2, hp2, hi2, hlen2, hmem2, heq2⟩ := ih hrec hi1
      have ht1' : s₂.tokens = s.tokens := ht1
      have hp1' : s.position + 1 < s₂.position := hp1
      have hspan1' : cmdCovers s.tokens (s.position + 1) s₂.position c := hspan1
      have hlenx : cmds.length + 1 ≤ cmds'.length := by
        have : (cmds ++ [c]).length ≤ cmds'.length := hlen2
        simp only [List.length_append, List.length_singleton] at this
        omega
      refine ⟨by rw [ht2, ht1'], by omega, hi2, by omega, ?_, ?_⟩
      · intro c0 hc0
        rcases hmem2 c0 hc0 with hin | ⟨a2, b2, ha2, hb2, hcov⟩
        · rcases List.mem_append.mp hin with hx | hx
          · exact Or.inl hx
          · have : c0 = c := by simpa using hx
            subst this
            exact Or.inr ⟨s.position + 1, s₂.position, by omega, by omega, hspan1'⟩
        · rw [ht1'] at hcov
          have ha2' : s₂.position ≤ a2 := ha2
          exact Or.inr ⟨a2, b2, by omega, hb2, hcov⟩
      · intro hlen
        omega
    · rw [if_neg hp] at h
      cases h
      exact ⟨rfl, Nat.le_refl _, hinv, Nat.le_refl _, fun c hc => Or.inl hc, fun _ => rfl⟩

theorem parsePipeline_ok {fuel : Nat} {s : PState} {st : Statement} {s' : PState}
    (h : parsePipeline fuel s = .ok st s') (hinv : PInv s) :
    s'.tokens = s.tokens ∧ s.position < s'.position ∧ PInv s' ∧
    goodStmt s.tokens s.position s'.position st := by
  cases fuel with
  | zero => exact PRes.noConfusion h
  | succ fuel =>
    simp only [parsePipeline] at h
    rw [PRes.bind_eq_ok] at h
    obtain ⟨c, s₁, hcmd, h⟩ := h
    rw [PRes.bind_eq_ok] at h
    obtain ⟨cmds, s₂, hloop, h⟩ := h
    obtain ⟨ht1, hp1, hi1, hspan1⟩ := parseCommand_ok hcmd hinv
    obtain ⟨ht2, hp2, hi2, hlen2, hmem2, heq2⟩ := pipeLoop_ok hloop hi1
    have hmem : ∀ c0 ∈ cmds,
        ∃ a2 b2, s.position ≤ a2 ∧ b2 ≤ s₂.position ∧ cmdCovers s.tokens a2 b2 c0 := by
      intro c0 hc0
      rcases hmem2 c0 hc0 with hx | ⟨a2, b2, ha2, hb2, hcov⟩
      · have : c0 = c := by simpa using hx
        subst this
        exact ⟨s.position, s₁.position, Nat.le_refl _, hp2, hspan1⟩
      · rw [ht1] at hcov
        have ha2' : s₁.position ≤ a2 := ha2
        exact ⟨a2, b2, by omega, hb2, hcov⟩
    rcases cmds with _ | ⟨c0, _ | ⟨c1, rest⟩⟩
    · exfalso
      simp at hlen2
    · cases h
      have hs' : s' = s₁ := heq2 rfl
      refine ⟨by rw [ht2, ht1], by omega, hi2, ?_⟩
      refine goodStmt_command ?_
      rcases hmem2 c0 (by simp) with hx | ⟨a2, b2, ha2, hb2, hcov⟩
      · have : c0 = c := by simpa using hx
        subst this
        rw [hs']
        exact hspan1
      · intro q hq
        rw [ht1] at hcov
        obtain ⟨ta, tb, hab, -, -, -, -⟩ := hcov q hq
        have ha2' : s₁.position ≤ a2 := ha2
        have hb2' : b2 ≤ s'.position := hb2
        rw [hs'] at hb2'
        omega
    · cases h
      refine ⟨by rw [ht2, ht1], by omega, hi2, ?_⟩
      exact goodStmt_pipeline (by simp) hmem

theorem parseVariableAssignment_ok {s : PState} {st : Statement} {s' : PState}
    (h : parseVariableAssignment s = .ok st s') (hinv : PInv s) :
    s'.tokens = s.tokens ∧ s.position < s'.position ∧ PInv s' ∧
    goodStmt s.tokens s.position s'.position st := by
  simp only [parseVariableAssignment] at h
  rw [PRes.bind_eq_ok] at h
  obtain ⟨nameTok, s₁, hadv, h⟩ := h
  rw [PRes.bind_eq_ok] at h
  obtain ⟨eqTok, s₂, hcons, h⟩ := h
  rw [PRes.bind_eq_ok] at h
  obtain ⟨v, s₃, hexpr, h⟩ := h
  cases h
  by_cases hend : isAtEndP s = true
  · exfalso
    have hs₁ : s₁ = s := by
      unfold advTok at hadv
      rw [advanceT_end hend] at hadv
      rcases hx : (if s.position = 0 then none
          else s.tokens[s.position - 1]? : Option Token) with _ | tk
      · rw [hx] at hadv
        exact PRes.noConfusion hadv
      · rw [hx] at hadv
        cases hadv
        rfl
    rw [hs₁] at hcons
    obtain ⟨-, -, htok, hty, -⟩ := consume_ok (by decide) hcons
    unfold isAtEndP at hend
    rw [Bool.or_eq_true] at hend
    rcases hend with h1 | h1
    · have := of_decide_eq_true h1
      have := hinv.2
      omega
    · obtain ⟨tk, htk, htke⟩ := check_true_iff.mp h1
      rw [show currentToken s = s.tokens[s.position]? from rfl, htok] at htk
      injection htk with htk
      subst htk
      rw [hty] at htke
      exact absurd htke (by decide)
  · have hend' : isAtEndP s = false := by simpa using hend
    obtain ⟨hlt, tok0, htok0, hne⟩ := isAtEndP_false_elim hend'
    rw [advTok_not_end hend' htok0] at hadv
    cases hadv
    obtain ⟨htc, hpc, htokc, htyc, hic⟩ := consume_ok (by decide) hcons
    have hinvc : PInv s₂ := hic hinv.1
    obtain ⟨hte, hpe, hie, hspe⟩ := parseExpression_ok hexpr hinvc
    have htc' : s₂.tokens = s.tokens := htc
    have hpc' : s₂.position = s.position + 1 + 1 := hpc
    have hts : s'.tokens = s.tokens := by rw [hte, htc']
    have hpe' : s'.position = s₂.position + 1 := hpe
    refine ⟨hts, by omega, hie, ?_⟩
    show goodStmt s.tokens s.position s'.position
      (.assignment nameTok.value v (getNodePosition ((currentToken s).map (·.position)) s'))
    rw [show currentToken s = some nameTok from htok0]
    simp only [Option.map_some']
    refine goodStmt_assignment ?_ ?_
    · exact getNodePosition_covers hts hinv.1 htok0 (by omega) (by rw [← hts]; exact hie.2)
    · refine ⟨s₂.position, s'.position, by omega, Nat.le_refl _, ?_⟩
      rw [htc'] at hspe
      exact hspe

/-! ### Soundness of the fuel-recursive builder functions -/

/-- Postcondition of `parseStatement`: tokens preserved, cursor monotone (and
strictly advanced when a statement is produced), invariant preserved, and any
produced statement satisfies all tree invariants. -/
def StmtOK (fuel : Nat) : Prop :=
  ∀ s st? s', parseStatement fuel s = .ok st? s' → PInv s →
    s'.tokens = s.tokens ∧ s.position ≤ s'.position ∧ PInv s' ∧
    ∀ st, st? = some st →
      s.position < s'.position ∧ goodStmt s.tokens s.position s'.position st

def CondOK (fuel : Nat) : Prop :=
  ∀ s st s', parseConditional fuel s = .ok st s' → PInv s →
    s'.tokens = s.tokens ∧ s.position < s'.position ∧ PInv s' ∧
    goodStmt s.tokens s.position s'.position st

/-- `parseLoop` is only invoked by the dispatcher under a FOR/WHILE guard,
which is what forces the recorded kind to be `for` or `while`. -/
def LoopOK (fuel : Nat) : Prop :=
  ∀ s st s', parseLoop fuel s = .ok st s' → PInv s →
    (check .FOR s = true ∨ check .WHILE s = true) →
    s'.tokens = s.tokens ∧ s.position < s'.position ∧ PInv s' ∧
    goodStmt s.tokens s.position s'.position st

def FuncOK (fuel : Nat) : Prop :=
  ∀ s st s', parseFunction fuel s = .ok st s' → PInv s →
    s'.tokens = s.tokens ∧ s.position < s'.position ∧ PInv s' ∧
    goodStmt s.tokens s.position s'.position st

def BodyOK (fuel : Nat) : Prop :=
  ∀ k s sts s', parseBody k fuel s = .ok sts s' → PInv s →
    s'.tokens = s.tokens ∧ s.position ≤ s'.position ∧ PInv s' ∧
    goodStmts s.tokens s.position s'.position sts

def TopOK (fuel : Nat) : Prop :=
  ∀ s sts s', parseStatementsTop fuel s = .ok sts s' → PInv s →
    s'.tokens = s.tokens ∧ s.position ≤ s'.position ∧ PInv s' ∧
    goodStmts s.tokens s.position s'.position sts

theorem parseStatement_step {fuel : Nat} (hc : CondOK fuel) (hl : LoopOK fuel)
    (hf : FuncOK fuel) : StmtOK (fuel + 1) := by
  intro s st? s' h hinv
  simp only [parseStatement] at h
  by_cases h1 : check .COMMENT s = true
  · rw [if_pos h1] at h
    cases h
    exact ⟨advanceS_tokens s, advanceS_pos_le s, PInv_advanceS hinv,
      fun st hst => Option.noConfusion hst⟩
  rw [if_neg h1] at h
  by_cases h2 : check .EOF s = true
  · rw [if_pos h2] at h
    cases h
    exact ⟨rfl, Nat.le_refl _, hinv, fun st hst => Option.noConfusion hst⟩
  rw [if_neg h2] at h
  by_cases h3 : check .IF s = true
  · rw [if_pos h3] at h
    rw [PRes.bind_eq_ok] at h
    obtain ⟨st0, s₁, hcond, hok⟩ := h
    cases hok
    obtain ⟨ht, hp, hi, hg⟩ := hc _ _ _ hcond hinv
    exact ⟨ht, Nat.le_of_lt hp, hi, fun st hst => by cases hst; exact ⟨hp, hg⟩⟩
  rw [if_neg h3] at h
  by_cases h4 : check .FOR s = true ∨ check .WHILE s = true
  · rw [if_pos h4] at h
    rw [PRes.bind_eq_ok] at h
    obtain ⟨st0, s₁, hloop, hok⟩ := h
    cases hok
    obtain ⟨ht, hp, hi, hg⟩ := hl _ _ _ hloop hinv h4
    exact ⟨ht, Nat.le_of_lt hp, hi, fun st hst => by cases hst; exact ⟨hp, hg⟩⟩
  rw [if_neg h4] at h
  by_cases h5 : check .FUNCTION s = true
  · rw [if_pos h5] at h
    rw [PRes.bind_eq_ok] at h
    obtain ⟨st0, s₁, hfun, hok⟩ := h
    cases hok
    obtain ⟨ht, hp, hi, hg⟩ := hf _ _ _ hfun hinv
    exact ⟨ht, Nat.le_of_lt hp, hi, fun st hst => by cases hst; exact ⟨hp, hg⟩⟩
  rw [if_neg h5] at h
  by_cases h6 : isVariableAssignment s = true
  · rw [if_pos h6] at h
    rw [PRes.bind_eq_ok] at h
    obtain ⟨st0, s₁, hva, hok⟩ := h
    cases hok
    obtain ⟨ht, hp, hi, hg⟩ := parseVariableAssignment_ok hva hinv
    exact ⟨ht, Nat.le_of_lt hp, hi, fun st hst => by cases hst; exact ⟨hp, hg⟩⟩
  rw [if_neg h6] at h
  by_cases h7 : check .WORD s = true
  · rw [if_pos h7] at h
    rw [PRes.bind_eq_ok] at h
    obtain ⟨st0, s₁, hpl, hok⟩ := h
    cases hok
    obtain ⟨ht, hp, hi, hg⟩ := parsePipeline_ok hpl hinv
    exact ⟨ht, Nat.le_of_lt hp, hi, fun st hst => by cases hst; exact ⟨hp, hg⟩⟩
  rw [if_neg h7] at h
  cases h
  exact ⟨rfl, Nat.le_refl _, hinv, fun st hst => Option.noConfusion hst⟩

theorem condElse_ok {fuel : Nat} (hb : BodyOK fuel) {s₄ : PState}
    {elseBody : Option (List Statement)} {s₆ : PState}
    (h : (if check .ELSE s₄ = true then
            (parseBody .elseB fuel (advanceS s₄)).bind fun els s₅ => .ok (some els) s₅
          else .ok none s₄) = .ok elseBody s₆)
    (hinv : PInv s₄) :
    s₆.tokens = s₄.tokens ∧ s₄.position ≤ s₆.position ∧ PInv s₆ ∧
    ∀ l, elseBody = some l → goodStmts s₄.tokens s₄.position s₆.position l := by
  by_cases he : check .ELSE s₄ = true
  · rw [if_pos he] at h
    rw [PRes.bind_eq_ok] at h
    obtain ⟨els, s₅, hels, hok⟩ := h
    cases hok
    obtain ⟨ht, hp, hi, hg⟩ := hb _ _ _ _ hels (PInv_advanceS hinv)
    refine ⟨by rw [ht, advanceS_tokens], ?_, hi, ?_⟩
    · have h0 := advanceS_pos_le s₄
      omega
    · intro l hl
      cases hl
      rw [advanceS_tokens] at hg
      exact goodStmts_mono (advanceS_pos_le s₄) (Nat.le_refl _) hg
  · rw [if_neg he] at h
    cases h
    exact ⟨rfl, Nat.le_refl _, hinv, fun l hl => Option.noConfusion hl⟩

theorem parseConditional_step {fuel : Nat} (hb : BodyOK fuel) : CondOK (fuel + 1) := by
  intro s st s' h hinv
  simp only [parseConditional] at h
  rw [PRes.bind_eq_ok] at h
  obtain ⟨ifTok, s₁, hif, h⟩ := h
  rw [PRes.bind_eq_ok] at h
  obtain ⟨cond, s₂, hexpr, h⟩ := h
  rw [PRes.bind_eq_ok] at h
  obtain ⟨thenTok, s₃, hthen, h⟩ := h
  rw [PRes.bind_eq_ok] at h
  obtain ⟨thenBody, s₄, hbody, h⟩ := h
  rw [PRes.bind_eq_ok] at h
  obtain ⟨elseBody, s₆, helse, h⟩ := h
  rw [PRes.bind_eq_ok] at h
  obtain ⟨fiTok, s₇, hfi, h⟩ := h
  cases h
  obtain ⟨hT1, hP1, htok1, hty1, hI1f⟩ := consume_ok (by decide) hif
  have hI1 : PInv s₁ := hI1f hinv.1
  obtain ⟨hT2, hP2, hI2, hsp2⟩ := parseExpression_ok hexpr hI1
  obtain ⟨hT3, hP3, htok3, hty3, hI3f⟩ := consume_ok (by decide) hthen
  have hI3 : PInv s₃ := hI3f (by rw [hT2, hT1]; exact hinv.1)
  obtain ⟨hT4, hP4, hI4, hG4⟩ := hb _ _ _ _ hbody hI3
  obtain ⟨hT6, hP6, hI6, hG6⟩ := condElse_ok hb helse hI4
  obtain ⟨hT7, hP7, htok7, hty7, hI7f⟩ := consume_ok (by decide) hfi
  have hI7 : PInv s' := hI7f (by rw [hT6, hT4, hT3, hT2, hT1]; exact hinv.1)
  have hTall : s'.tokens = s.tokens := by rw [hT7, hT6, hT4, hT3, hT2, hT1]
  have hPlt : s.position < s'.position := by omega
  refine ⟨hTall, hPlt, hI7, ?_⟩
  show goodStmt s.tokens s.position s'.position
    (.conditional cond thenBody elseBody
      (getNodePosition ((currentToken s).map (·.position)) s'))
  rw [show currentToken s = some ifTok from htok1]
  simp only [Option.map_some']
  refine goodStmt_conditional ?_ ?_ ?_ ?_
  · exact getNodePosition_covers hTall hinv.1 htok1 (by omega) (by rw [← hTall]; exact hI7.2)
  · refine ⟨s₁.position, s₂.position, by omega, by omega, ?_⟩
    rwa [hT1] at hsp2
  · have e3 : s₃.tokens = s.tokens := by rw [hT3, hT2, hT1]
    rw [e3] at hG4
    exact goodStmts_mono (by omega) (by omega) hG4
  · intro l hl
    have hg := hG6 l hl
    have e4 : s₄.tokens = s.tokens := by rw [hT4, hT3, hT2, hT1]
    rw [e4] at hg
    exact goodStmts_mono (by omega) (by omega) hg

theorem loopHead_ok {s₁ : PState} {kindTok : Token}
    {parts : Option Expression × Option String × Option Expression} {s₅ : PState}
    (h : (if kindTok.value = "for" then
            (consume .WORD "Expected variable name" s₁).bind fun varTok s₂ =>
              (consume .WORD "Expected 'in'" s₂).bind fun _ s₃ =>
                (parseExpression s₃).bind fun iter s₄ =>
                  .ok ((none : Option Expression), some varTok.value, some iter) s₄
          else
            (parseExpression s₁).bind fun cond s₂ =>
              .ok (some cond, (none : Option String), (none : Option Expression)) s₂)
        = .ok parts s₅)
    (hinv : PInv s₁) :
    s₅.tokens = s₁.tokens ∧ s₁.position ≤ s₅.position ∧ PInv s₅ ∧
    (∀ x, parts.1 = some x →
      ∃ a2 b2, s₁.position ≤ a2 ∧ b2 ≤ s₅.position ∧ exprCovers s₁.tokens a2 b2 x) ∧
    (∀ x, parts.2.2 = some x →
      ∃ a2 b2, s₁.position ≤ a2 ∧ b2 ≤ s₅.position ∧ exprCovers s₁.tokens a2 b2 x) := by
  by_cases hfor : kindTok.value = "for"
  · rw [if_pos hfor] at h
    rw [PRes.bind_eq_ok] at h
    obtain ⟨varTok, s₂, hvar, h⟩ := h
    rw [PRes.bind_eq_ok] at h
    obtain ⟨inTok, s₃, hin, h⟩ := h
    rw [PRes.bind_eq_ok] at h
    obtain ⟨iter, s₄, hiter, h⟩ := h
    cases h
    obtain ⟨hT2, hP2, -, -, hI2f⟩ := consume_ok (by decide) hvar
    have hI2 : PInv s₂ := hI2f hinv.1
    obtain ⟨hT3, hP3, -, -, hI3f⟩ := consume_ok (by decide) hin
    have hI3 : PInv s₃ := hI3f (by rw [hT2]; exact hinv.1)
    obtain ⟨hT4, hP4, hI4, hsp4⟩ := parseExpression_ok hiter hI3
    refine ⟨by rw [hT4, hT3, hT2], by omega, hI4, ?_, ?_⟩
    · intro x hx
      exact Option.noConfusion hx
    · intro x hx
      cases hx
      have e3 : s₃.tokens = s₁.tokens := by rw [hT3, hT2]
      rw [e3] at hsp4
      exact ⟨s₃.position, s₅.position, by omega, Nat.le_refl _, hsp4⟩
  · rw [if_neg hfor] at h
    rw [PRes.bind_eq_ok] at h
    obtain ⟨cond, s₂, hcond, h⟩ := h
    cases h
    obtain ⟨hT2, hP2, hI2, hsp2⟩ := parseExpression_ok hcond hinv
    refine ⟨hT2, by omega, hI2, ?_, ?_⟩
    · intro x hx
      cases hx
      exact ⟨s₁.position, s₅.position, Nat.le_refl _, Nat.le_refl _, hsp2⟩
    · intro x hx
      exact Option.noConfusion hx

theorem parseLoop_step {fuel : Nat} (hb : BodyOK fuel) : LoopOK (fuel + 1) := by
  intro s st s' h hinv hguard
  simp only [parseLoop] at h
  rw [PRes.bind_eq_ok] at h
  obtain ⟨kindTok, s₁, hadv, h⟩ := h
  rw [PRes.bind_eq_ok] at h
  obtain ⟨parts, s₅, hhead, h⟩ := h
  rw [PRes.bind_eq_ok] at h
  obtain ⟨doTok, s₆, hdo, h⟩ := h
  rw [PRes.bind_eq_ok] at h
  obtain ⟨body, s₇, hbody, h⟩ := h
  rw [PRes.bind_eq_ok] at h
  obtain ⟨doneTok, s₈, hdone, h⟩ := h
  cases h
  -- the guard forces the current token to be a FOR or WHILE token
  have hend : isAtEndP s = false := by
    rcases hguard with hg | hg
    · exact isAtEndP_false_of_check (by decide) hg
    · exact isAtEndP_false_of_check (by decide) hg
  obtain ⟨hlt0, tok0, htok0, hne0⟩ := isAtEndP_false_elim hend
  rw [advTok_not_end hend htok0] at hadv
  cases hadv
  have hkind : kindTok.value = "for" ∨ kindTok.value = "while" := by
    have hmem : kindTok ∈ s.tokens := by
      obtain ⟨hlt2, heq⟩ := List.getElem?_eq_some.mp htok0
      rw [← heq]
      exact List.getElem_mem hlt2
    rcases hguard with hg | hg
    · obtain ⟨tk, htk, htyk⟩ := check_true_iff.mp hg
      rw [show currentToken s = s.tokens[s.position]? from rfl, htok0] at htk
      injection htk with htk
      subst htk
      exact Or.inl (hinv.1.kwFor kindTok hmem htyk)
    · obtain ⟨tk, htk, htyk⟩ := check_true_iff.mp hg
      rw [show currentToken s = s.tokens[s.position]? from rfl, htok0] at htk
      injection htk with htk
      subst htk
      exact Or.inr (hinv.1.kwWhile kindTok hmem htyk)
  have hI1 : PInv (⟨s.tokens, s.position + 1⟩ : PState) :=
    ⟨hinv.1, hinv.1.eofGuard _ _ htok0 hne0⟩
  obtain ⟨hT5, hP5, hI5, hC5, hIt5⟩ := loopHead_ok hhead hI1
  obtain ⟨hT6, hP6, htok6, hty6, hI6f⟩ := consume_ok (by decide) hdo
  have hI6 : PInv s₆ := hI6f (by rw [hT5]; exact hinv.1)
  obtain ⟨hT7, hP7, hI7, hG7⟩ := hb _ _ _ _ hbody hI6
  obtain ⟨hT8, hP8, htok8, hty8, hI8f⟩ := consume_ok (by decide) hdone
  have hI8 : PInv s' := hI8f (by rw [hT7, hT6, hT5]; exact hinv.1)
  have hT5' : s₅.tokens = s.tokens := hT5
  have hP5' : s.position + 1 ≤ s₅.position := hP5
  have hTall : s'.tokens = s.tokens := by rw [hT8, hT7, hT6, hT5']
  refine ⟨hTall, by omega, hI8, ?_⟩
  show goodStmt s.tokens s.position s'.position
    (.loop kindTok.value parts.1 parts.2.1 parts.2.2 body
      (getNodePosition ((currentToken s).map (·.position)) s'))
  rw [show currentToken s = some kindTok from htok0]
  simp only [Option.map_some']
  refine goodStmt_loop hkind ?_ ?_ ?_ ?_
  · exact getNodePosition_covers hTall hinv.1 htok0 (by omega) (by rw [← hTall]; exact hI8.2)
  · intro x hx
    obtain ⟨a2, b2, ha2, hb2, hcov⟩ := hC5 x hx
    have hcov' : exprCovers s.tokens a2 b2 x := hcov
    have ha2' : s.position + 1 ≤ a2 := ha2
    exact ⟨a2, b2, by omega, by omega, hcov'⟩
  · intro x hx
    obtain ⟨a2, b2, ha2, hb2, hcov⟩ := hIt5 x hx
    have hcov' : exprCovers s.tokens a2 b2 x := hcov
    have ha2' : s.position + 1 ≤ a2 := ha2
    exact ⟨a2, b2, by omega, by omega, hcov'⟩
  · have e6 : s₆.tokens = s.tokens := by rw [hT6, hT5']
    rw [e6] at hG7
    exact goodStmts_mono (by omega) (by omega) hG7

theorem parseFunction_step {fuel : Nat} (hb : BodyOK fuel) : FuncOK (fuel + 1) := by
  intro s st s' h hinv
  simp only [parseFunction] at h
  rw [PRes.bind_eq_ok] at h
  obtain ⟨fnTok, s₁, hfn, h⟩ := h
  rw [PRes.bind_eq_ok] at h
  obtain ⟨nameTok, s₂, hname, h⟩ := h
  rw [PRes.bind_eq_ok] at h
  obtain ⟨lpTok, s₃, hlp, h⟩ := h
  rw [PRes.bind_eq_ok] at h
  obtain ⟨rpTok, s₄, hrp, h⟩ := h
  rw [PRes.bind_eq_ok] at h
  obtain ⟨lbTok, s₅, hlb, h⟩ := h
  rw [PRes.bind_eq_ok] at h
  obtain ⟨body, s₆, hbody, h⟩ := h
  rw [PRes.bind_eq_ok] at h
  obtain ⟨rbTok, s₇, hrb, h⟩ := h
  cases h
  obtain ⟨hT1, hP1, htok1, hty1, hI1f⟩ := consume_ok (by decide) hfn
  have hI1 : PInv s₁ := hI1f hinv.1
  obtain ⟨hT2, hP2, -, -, hI2f⟩ := consume_ok (by decide) hname
  have hI2 : PInv s₂ := hI2f (by rw [hT1]; exact hinv.1)
  obtain ⟨hT3, hP3, -, -, hI3f⟩ := consume_ok (by decide) hlp
  have hI3 : PInv s₃ := hI3f (by rw [hT2, hT1]; exact hinv.1)
  obtain ⟨hT4, hP4, -, -, hI4f⟩ := consume_ok (by decide) hrp
  have hI4 : PInv s₄ := hI4f (by rw [hT3, hT2, hT1]; exact hinv.1)
  obtain ⟨hT5, hP5, -, -, hI5f⟩ := consume_ok (by decide) hlb
  have hI5 : PInv s₅ := hI5f (by rw [hT4, hT3, hT2, hT1]; exact hinv.1)
  obtain ⟨hT6, hP6, hI6, hG6⟩ := hb _ _ _ _ hbody hI5
  obtain ⟨hT7, hP7, -, -, hI7f⟩ := consume_ok (by decide) hrb
  have hI7 : PInv s' := hI7f (by rw [hT6, hT5, hT4, hT3, hT2, hT1]; exact hinv.1)
  have hTall : s'.tokens = s.tokens := by rw [hT7, hT6, hT5, hT4, hT3, hT2, hT1]
  refine ⟨hTall, by omega, hI7, ?_⟩
  show goodStmt s.tokens s.position s'.position
    (.funcDecl nameTok.value body (getNodePosition ((currentToken s).map (·.position)) s'))
  rw [show currentToken s = some fnTok from htok1]
  simp only [Option.map_some']
  refine goodStmt_funcDecl ?_ ?_
  · exact getNodePosition_covers hTall hinv.1 htok1 (by omega) (by rw [← hTall]; exact hI7.2)
  · have e5 : s₅.tokens = s.tokens := by rw [hT5, hT4, hT3, hT2, hT1]
    rw [e5] at hG6
    exact goodStmts_mono (by omega) (by omega) hG6

theorem parseBody_step {fuel : Nat} (hs : StmtOK fuel) (hb : BodyOK fuel) :
    BodyOK (fuel + 1) := by
  intro k s sts s' h hinv
  simp only [parseBody] at h
  by_cases h1 : stopB k s = true
  · rw [if_pos h1] at h
    cases h
    exact ⟨rfl, Nat.le_refl _, hinv, goodStmts_nil⟩
  rw [if_neg h1] at h
  by_cases h2 : check .NEWLINE s = true
  · rw [if_pos h2] at h
    obtain ⟨ht, hp, hi, hg⟩ := hb _ _ _ _ h (PInv_advanceS hinv)
    refine ⟨by rw [ht, advanceS_tokens], ?_, hi, ?_⟩
    · have h0 := advanceS_pos_le s
      omega
    · rw [advanceS_tokens] at hg
      exact goodStmts_mono (advanceS_pos_le s) (Nat.le_refl _) hg
  rw [if_neg h2] at h
  rw [PRes.bind_eq_ok] at h
  obtain ⟨st?, s₁, hstmt, h⟩ := h
  obtain ⟨hT1, hP1, hI1, hsome⟩ := hs _ _ _ hstmt hinv
  rcases st? with _ | st
  · obtain ⟨hT2, hP2, hI2, hG2⟩ := hb _ _ _ _ h (PInv_advanceS hI1)
    refine ⟨by rw [hT2, advanceS_tokens, hT1], ?_, hI2, ?_⟩
    · have h0 := advanceS_pos_le s₁
      omega
    · rw [advanceS_tokens, hT1] at hG2
      refine goodStmts_mono ?_ (Nat.le_refl _) hG2
      have h0 := advanceS_pos_le s₁
      omega
  · rw [PRes.bind_eq_ok] at h
    obtain ⟨rest, s₂, hrec, hok⟩ := h
    cases hok
    obtain ⟨hPlt, hgst⟩ := hsome st rfl
    obtain ⟨hT2, hP2, hI2, hG2⟩ := hb _ _ _ _ hrec hI1
    refine ⟨by rw [hT2, hT1], by omega, hI2, ?_⟩
    rw [hT1] at hG2
    exact goodStmts_cons (Nat.le_refl _) (by omega) hgst
      (goodStmts_mono (by omega) (Nat.le_refl _) hG2)

theorem parseStatementsTop_step {fuel : Nat} (hs : StmtOK fuel) (htop : TopOK fuel) :
    TopOK (fuel + 1) := by
  have hmid : ∀ s0 : PState,
      (if check .SEMICOLON s0 = true ∨ check .NEWLINE s0 = true then advanceS s0 else s0).tokens
        = s0.tokens ∧
      s0.position ≤
        (if check .SEMICOLON s0 = true ∨ check .NEWLINE s0 = true then advanceS s0
          else s0).position ∧
      (PInv s0 → PInv (if check .SEMICOLON s0 = true ∨ check .NEWLINE s0 = true then advanceS s0
          else s0)) := by
    intro s0
    split
    · exact ⟨advanceS_tokens s0, advanceS_pos_le s0, PInv_advanceS⟩
    · exact ⟨rfl, Nat.le_refl _, id⟩
  intro s sts s' h hinv
  simp only [parseStatementsTop] at h
  by_cases h1 : (isAtEndP s || check .EOF s) = true
  · rw [if_pos h1] at h
    cases h
    exact ⟨rfl, Nat.le_refl _, hinv, goodStmts_nil⟩
  rw [if_neg h1] at h
  by_cases h2 : check .NEWLINE s = true
  · rw [if_pos h2] at h
    obtain ⟨ht, hp, hi, hg⟩ := htop _ _ _ h (PInv_advanceS hinv)
    refine ⟨by rw [ht, advanceS_tokens], ?_, hi, ?_⟩
    · have h0 := advanceS_pos_le s
      omega
    · rw [advanceS_tokens] at hg
      exact goodStmts_mono (advanceS_pos_le s) (Nat.le_refl _) hg
  rw [if_neg h2] at h
  rw [PRes.bind_eq_ok] at h
  obtain ⟨st?, s₁, hstmt, h⟩ := h
  obtain ⟨hT1, hP1, hI1, hsome⟩ := hs _ _ _ hstmt hinv
  rcases st? with _ | st
  · obtain ⟨hmT, hmP, hmI⟩ := hmid (advanceS s₁)
    obtain ⟨hT2, hP2, hI2, hG2⟩ := htop _ _ _ h (hmI (PInv_advanceS hI1))
    refine ⟨by rw [hT2, hmT, advanceS_tokens, hT1], ?_, hI2, ?_⟩
    · have h0 := advanceS_pos_le s₁
      omega
    · rw [hmT, advanceS_tokens, hT1] at hG2
      refine goodStmts_mono ?_ (Nat.le_refl _) hG2
      have h0 := advanceS_pos_le s₁
      omega
  · rw [PRes.bind_eq_ok] at h
    obtain ⟨rest, s₂, hrec, hok⟩ := h
    cases hok
    obtain ⟨hPlt, hgst⟩ := hsome st rfl
    obtain ⟨hmT, hmP, hmI⟩ := hmid s₁
    obtain ⟨hT2, hP2, hI2, hG2⟩ := htop _ _ _ hrec (hmI hI1)
    refine ⟨by rw [hT2, hmT, hT1], by omega, hI2, ?_⟩
    rw [hmT, hT1] at hG2
    exact goodStmts_cons (Nat.le_refl _) (by omega) hgst
      (goodStmts_mono (by omega) (Nat.le_refl _) hG2)

/-- All builder soundness postconditions, for every fuel value. -/
theorem parser_sound : ∀ fuel : Nat,
    StmtOK fuel ∧ CondOK fuel ∧ LoopOK fuel ∧ FuncOK fuel ∧ BodyOK fuel ∧ TopOK fuel := by
  intro fuel
  induction fuel with
  | zero =>
    refine ⟨?_, ?_, ?_, ?_, ?_, ?_⟩
    · intro s st? s' h _
      exact PRes.noConfusion h
    · intro s st s' h _
      exact PRes.noConfusion h
    · intro s st s' h _ _
      exact PRes.noConfusion h
    · intro s st s' h _
      exact PRes.noConfusion h
    · intro k s sts s' h hinv
      simp only [parseBody] at h
      by_cases h1 : stopB k s = true
      · rw [if_pos h1] at h
        cases h
        exact ⟨rfl, Nat.le_refl _, hinv, goodStmts_nil⟩
      · rw [if_neg h1] at h
        exact PRes.noConfusion h
    · intro s sts s' h hinv
      simp only [parseStatementsTop] at h
      by_cases h1 : (isAtEndP s || check .EOF s) = true
      · rw [if_pos h1] at h
        cases h
        exact ⟨rfl, Nat.le_refl _, hinv, goodStmts_nil⟩
      · rw [if_neg h1] at h
        exact PRes.noConfusion h
  | succ fuel ih =>
    obtain ⟨hs, hc, hl, hf, hb, htop⟩ := ih
    exact ⟨parseStatement_step hc hl hf, parseConditional_step hb, parseLoop_step hb,
      parseFunction_step hb, parseBody_step hs hb, parseStatementsTop_step hs htop⟩

theorem tokenize_length_pos (input : String) : 0 < (tokenize input).length := by
  rw [tokenize_eq]
  simp

/-- Every successful `parse` yields a statement list satisfying all tree
invariants over the consumed interval `[0, s'.position)`, and the program node
itself carries no position. -/
theorem parse_ok_good {input : String} {prog : Program} {s' : PState}
    (h : parse input = .ok prog s') :
    goodStmts (tokenize input) 0 s'.position prog.body ∧ prog.position = none := by
  unfold parse at h
  rw [PRes.bind_eq_ok] at h
  obtain ⟨body, s₁, htop, hok⟩ := h
  cases hok
  have hinv : PInv ⟨tokenize input, 0⟩ := ⟨tokenize_inv input, tokenize_length_pos input⟩
  obtain ⟨-, -, -, hg⟩ := (parser_sound _).2.2.2.2.2 _ _ _ htop hinv
  exact ⟨hg, rfl⟩

/-- C3: on every successful parse, every Pipeline node in the returned tree
has at least two commands (pipeline parsing collapses a single command to a
bare Command node); concretely, `a | b | c` parses to one Pipeline of three
commands in left-to-right order, while `a` alone parses to a bare Command. -/
theorem pipelines_never_short :
    (∀ (input : String) (prog : Program) (s' : PState),
        parse input = .ok prog s' → stmtsAll pipeLenP prog.body = true) ∧
    parse "a | b | c" =
      .ok ⟨[.pipeline [⟨"a", [], some ⟨0, 3, 1, 1⟩⟩, ⟨"b", [], some ⟨4, 7, 1, 5⟩⟩,
              ⟨"c", [], some ⟨8, 9, 1, 9⟩⟩] none], none⟩
          ⟨tokenize "a | b | c", 5⟩ ∧
    parse "a" = .ok ⟨[.command ⟨"a", [], some ⟨0, 1, 1, 1⟩⟩], none⟩ ⟨tokenize "a", 1⟩ :=
  ⟨fun input prog s' h => (parse_ok_good h).1.1, rfl, rfl⟩

/-- Witness for C3 at the concrete input `x | y`. -/
theorem pipelines_never_short_witness :
    stmtsAll pipeLenP
      [Statement.pipeline [⟨"x", [], some ⟨0, 3, 1, 1⟩⟩, ⟨"y", [], some ⟨4, 5, 1, 5⟩⟩] none]
      = true :=
  pipelines_never_short.1 "x | y"
    ⟨[.pipeline [⟨"x", [], some ⟨0, 3, 1, 1⟩⟩, ⟨"y", [], some ⟨4, 5, 1, 5⟩⟩] none], none⟩
    ⟨tokenize "x | y", 3⟩ rfl

/-- C8: on every successful parse, every Pipeline node in the returned tree
carries no position annotation (the builder calls its span helper with no
start position for pipelines). -/
theorem pipeline_position_absent (input : String) (prog : Program) (s' : PState)
    (h : parse input = .ok prog s') : stmtsAll pipePosP prog.body = true :=
  (parse_ok_good h).1.2.1

/-- Witness for C8 at the concrete input `p | q`. -/
theorem pipeline_position_absent_witness :
    stmtsAll pipePosP
      [Statement.pipeline [⟨"p", [], some ⟨0, 3, 1, 1⟩⟩, ⟨"q", [], some ⟨4, 5, 1, 5⟩⟩] none]
      = true :=
  pipeline_position_absent "p | q"
    ⟨[.pipeline [⟨"p", [], some ⟨0, 3, 1, 1⟩⟩, ⟨"q", [], some ⟨4, 5, 1, 5⟩⟩] none], none⟩
    ⟨tokenize "p | q", 3⟩ rfl

/-- C9: on every successful parse, every Loop node in the returned tree has
kind `for` or `while`; the declared kind `until` is never produced. -/
theorem loop_kind_for_or_while (input : String) (prog : Program) (s' : PState)
    (h : parse input = .ok prog s') : stmtsAll loopKindP prog.body = true :=
  (parse_ok_good h).1.2.2.1

/-- Witness for C9 at the concrete inputs `for i in xs do run done` and
`while up do tick done`. -/
theorem loop_kind_for_or_while_witness :
    stmtsAll loopKindP
      [Statement.loop "for" none (some "i")
        (some (.literal "xs" false (some ⟨9, 11, 1, 10⟩)))
        [.command ⟨"run", [], some ⟨15, 23, 1, 16⟩⟩] (some ⟨0, 23, 1, 1⟩)] = true ∧
    stmtsAll loopKindP
      [Statement.loop "while" (some (.literal "up" false (some ⟨6, 8, 1, 7⟩))) none none
        [.command ⟨"tick", [], some ⟨12, 21, 1, 13⟩⟩] (some ⟨0, 21, 1, 1⟩)] = true :=
  ⟨loop_kind_for_or_while "for i in xs do run done"
      ⟨[.loop "for" none (some "i") (some (.literal "xs" false (some ⟨9, 11, 1, 10⟩)))
          [.command ⟨"run", [], some ⟨15, 23, 1, 16⟩⟩] (some ⟨0, 23, 1, 1⟩)], none⟩
      ⟨tokenize "for i in xs do run done", 7⟩ rfl,
    loop_kind_for_or_while "while up do tick done"
      ⟨[.loop "while" (some (.literal "up" false (some ⟨6, 8, 1, 7⟩))) none none
          [.command ⟨"tick", [], some ⟨12, 21, 1, 13⟩⟩] (some ⟨0, 21, 1, 1⟩)], none⟩
      ⟨tokenize "while up do tick done", 5⟩ rfl⟩

/-- C6: every node of the returned tree that carries a position covers the
tokens consumed for that construct: its span starts at or before the start
offset of the first consumed token and ends at or after the end offset of the
last consumed token.  The first conjunct states this for the whole tree of any
successful parse, each node covering the endpoints of its own consumed token
interval nested inside its parent's; the remaining conjuncts pin each kind of
construct to its exact consumed interval `[s.position, s'.position)`: for
every builder call that returns a node while moving the cursor from `s` to
`s'`, that node's span covers the first token consumed (index `s.position`)
and the last token consumed (index `s'.position - 1`).  The program root
itself carries no position. -/
theorem node_spans_cover_tokens :
    (∀ (input : String) (prog : Program) (s' : PState), parse input = .ok prog s' →
        stmtsCovers (tokenize input) 0 s'.position prog.body ∧ prog.position = none) ∧
    (∀ (s : PState) (e : Expression) (s' : PState),
        parseExpression s = .ok e s' → PInv s →
        exprCovers s.tokens s.position s'.position e) ∧
    (∀ (fuel : Nat) (s : PState) (cmd : Cmd) (s' : PState),
        parseCommand fuel s = .ok cmd s' → PInv s →
        cmdCovers s.tokens s.position s'.position cmd) ∧
    (∀ (s : PState) (st : Statement) (s' : PState),
        parseVariableAssignment s = .ok st s' → PInv s →
        stmtCovers s.tokens s.position s'.position st) ∧
    (∀ (fuel : Nat) (s : PState) (st : Statement) (s' : PState),
        parsePipeline fuel s = .ok st s' → PInv s →
        stmtCovers s.tokens s.position s'.position st) ∧
    (∀ (fuel : Nat) (s : PState) (st : Statement) (s' : PState),
        parseConditional fuel s = .ok st s' → PInv s →
        stmtCovers s.tokens s.position s'.position st) ∧
    (∀ (fuel : Nat) (s : PState) (st : Statement) (s' : PState),
        parseLoop fuel s = .ok st s' → PInv s →
        (check .FOR s = true ∨ check .WHILE s = true) →
        stmtCovers s.tokens s.position s'.position st) ∧
    (∀ (fuel : Nat) (s : PState) (st : Statement) (s' : PState),
        parseFunction fuel s = .ok st s' → PInv s →
        stmtCovers s.tokens s.position s'.position st) := by
  refine ⟨?_, ?_, ?_, ?_, ?_, ?_, ?_, ?_⟩
  · intro input prog s' h
    obtain ⟨hg, hp⟩ := parse_ok_good h
    exact ⟨hg.2.2.2, hp⟩
  · intro s e s' h hinv
    exact (parseExpression_ok h hinv).2.2.2
  · intro fuel s cmd s' h hinv
    exact (parseCommand_ok h hinv).2.2.2
  · intro s st s' h hinv
    exact ((parseVariableAssignment_ok h hinv).2.2.2).2.2.2
  · intro fuel s st s' h hinv
    exact ((parsePipeline_ok h hinv).2.2.2).2.2.2
  · intro fuel s st s' h hinv
    exact (((parser_sound fuel).2.1 s st s' h hinv).2.2.2).2.2.2
  · intro fuel s st s' h hinv hguard
    exact (((parser_sound fuel).2.2.1 s st s' h hinv hguard).2.2.2).2.2.2
  · intro fuel s st s' h hinv
    exact (((parser_sound fuel).2.2.2.1 s st s' h hinv).2.2.2).2.2.2

/-- Witness for C6 at the concrete input `ls -la`: the single Command node
covers the consumed token interval `[0, 2)` (both tokens of the input). -/
theorem node_spans_cover_tokens_witness :
    stmtsCovers (tokenize "ls -la") 0 2
      [Statement.command ⟨"ls", ["-la"], some ⟨0, 6, 1, 1⟩⟩] ∧
    (⟨[Statement.command ⟨"ls", ["-la"], some ⟨0, 6, 1, 1⟩⟩], none⟩ : Program).position
      = none :=
  node_spans_cover_tokens.1 "ls -la"
    ⟨[.command ⟨"ls", ["-la"], some ⟨0, 6, 1, 1⟩⟩], none⟩ ⟨tokenize "ls -la", 2⟩ rfl

/-! ### Whitespace-only inputs -/

/-- Input consisting only of spaces, tabs and newlines. -/
def AllWS (cs : List Char) : Prop := ∀ c ∈ cs, c = ' ' ∨ c = '\t' ∨ c = '\n'

theorem skipWSAux_ws (cs : List Char) : ∀ p l c, AllWS cs →
    (skipWSAux cs p l c).remaining = [] ∨
    ∃ rest, (skipWSAux cs p l c).remaining = '\n' :: rest ∧ AllWS rest := by
  induction cs with
  | nil =>
    intro p l c _
    exact Or.inl rfl
  | cons ch rest ih =>
    intro p l c h
    have hch := h ch (by simp)
    have hrest : AllWS rest := fun c0 hc0 => h c0 (by simp [hc0])
    simp only [skipWSAux]
    by_cases hsp : ch = ' ' ∨ ch = '\t'
    · rw [if_pos hsp]
      exact ih (p + 1) l (c + 1) hrest
    · rw [if_neg hsp]
      have : ch = '\n' := by
        rcases hch with h1 | h1 | h1
        · exact absurd (Or.inl h1) hsp
        · exact absurd (Or.inr h1) hsp
        · exact h1
      subst this
      exact Or.inr ⟨rest, rfl, hrest⟩

theorem nextToken_ws {s : TkState} (h : AllWS s.remaining) :
    ((nextToken s).1 = none ∧ (nextToken s).2.remaining = []) ∨
    (∃ tok, (nextToken s).1 = some tok ∧ tok.type = .NEWLINE ∧
      AllWS (nextToken s).2.remaining) := by
  unfold nextToken
  rcases hww : skipWSAux s.remaining s.pos s.line s.column with ⟨wrem, wp, wl, wc⟩
  have hws := skipWSAux_ws s.remaining s.pos s.line s.column h
  rw [hww] at hws
  rcases hws with h1 | ⟨rest, h1, h2⟩
  · simp only [] at h1
    subst h1
    exact Or.inl ⟨rfl, rfl⟩
  · simp only [] at h1
    subst h1
    right
    rw [show scanTok ⟨'\n' :: rest, wp, wl, wc⟩ =
        oneCharTok .NEWLINE "\n" '\n' rest wp wl wc from by simp [scanTok]]
    refine ⟨createToken .NEWLINE "\n" ⟨wp, wp, wl, wc⟩ (tkAdvance ⟨'\n' :: rest, wp, wl, wc⟩),
      rfl, rfl, ?_⟩
    rw [show (oneCharTok .NEWLINE "\n" '\n' rest wp wl wc).2.remaining = rest from by
      simp [oneCharTok, tkAdvance_cons]]
    exact h2

theorem tokenizeAux_ws (fuel : Nat) : ∀ (s : TkState), AllWS s.remaining →
    ∀ t ∈ (tokenizeAux fuel s).1, t.type = .NEWLINE := by
  induction fuel with
  | zero =>
    intro s _ t ht
    simp [tokenizeAux] at ht
  | succ fuel ih =>
    intro s hws t ht
    by_cases hrm : s.remaining = []
    · rw [tokenizeAux.eq_def] at ht
      simp [hrm] at ht
    · rw [tokenizeAux_succ_cons hrm] at ht
      have hwsNext : AllWS (nextToken s).2.remaining := by
        rcases nextToken_ws hws with ⟨-, h2⟩ | ⟨tok, -, -, h2⟩
        · rw [h2]
          intro c hc
          simp at hc
        · exact h2
      rcases List.mem_append.mp ht with h1 | h1
      · rcases nextToken_ws hws with ⟨hn, -⟩ | ⟨tok, hn, hty, -⟩
        · rw [hn] at h1
          simp at h1
        · rw [hn] at h1
          simp at h1
          rw [h1]
          exact hty
      · exact ih (nextToken s).2 hwsNext t h1

theorem tokenize_ws {input : String} (h : AllWS input.toList) :
    ∀ (i : Nat) (t : Token), (tokenize input)[i]? = some t →
      t.type = .NEWLINE ∨ t.type = .EOF := by
  intro i t hit
  have hmem : t ∈ tokenize input := by
    obtain ⟨hlt, heq⟩ := List.getElem?_eq_some.mp hit
    rw [← heq]
    exact List.getElem_mem hlt
  rw [tokenize_eq] at hmem
  rcases List.mem_append.mp hmem with h1 | h1
  · exact Or.inl (tokenizeAux_ws _ (initTkState input) h t h1)
  · have ht : t = createToken .EOF ""
        ((tokenizeAux (input.toList.length + 1) (initTkState input)).2).getPosition
        (tokenizeAux (input.toList.length + 1) (initTkState input)).2 := by
      simpa using h1
    rw [ht]
    exact Or.inr rfl

theorem top_ws : ∀ (fuel : Nat) (s : PState),
    s.tokens.length - s.position ≤ fuel →
    (∀ (i : Nat) (t : Token), s.tokens[i]? = some t → t.type = .NEWLINE ∨ t.type = .EOF) →
    ∃ s', parseStatementsTop fuel s = .ok [] s' := by
  intro fuel
  induction fuel with
  | zero =>
    intro s hfuel _
    have hend : isAtEndP s = true := by
      unfold isAtEndP
      have : s.tokens.length ≤ s.position := by omega
      simp [this]
    refine ⟨s, ?_⟩
    simp only [parseStatementsTop]
    rw [if_pos (by rw [hend]; rfl)]
  | succ fuel ih =>
    intro s hfuel hnl
    by_cases hend : (isAtEndP s || check .EOF s) = true
    · refine ⟨s, ?_⟩
      simp only [parseStatementsTop]
      rw [if_pos hend]
    · have hend0 : (isAtEndP s || check .EOF s) = false := by simpa using hend
      have hend' : isAtEndP s = false := (Bool.or_eq_false_iff.mp hend0).1
      obtain ⟨hlt, tok, htok, hne⟩ := isAtEndP_false_elim hend'
      have hty := hnl s.position tok htok
      have htyn : tok.type = .NEWLINE := by
        rcases hty with h1 | h1
        · exact h1
        · exact absurd h1 hne
      have hNL : check .NEWLINE s = true := by
        unfold check
        rw [show currentToken s = s.tokens[s.position]? from rfl, htok]
        simp [htyn]
      have hadv : advanceS s = ⟨s.tokens, s.position + 1⟩ := advanceS_not_end hend'
      obtain ⟨s', hs'⟩ := ih ⟨s.tokens, s.position + 1⟩ (by simp; omega)
        (fun i t hit => hnl i t hit)
      refine ⟨s', ?_⟩
      simp only [parseStatementsTop]
      rw [if_neg hend, if_pos hNL, hadv]
      exact hs'

/-- C10: for the empty input and every input consisting only of spaces, tabs
and newlines, `parse` succeeds and returns a Program with an empty body (and
no position). -/
theorem whitespace_parses_to_empty_program (input : String)
    (h : ∀ c ∈ input.toList, c = ' ' ∨ c = '\t' ∨ c = '\n') :
    ∃ s', parse input = .ok ⟨[], none⟩ s' := by
  obtain ⟨s', hs'⟩ := top_ws (2 * (tokenize input).length + 2) ⟨tokenize input, 0⟩
    (by show (tokenize input).length - 0 ≤ 2 * (tokenize input).length + 2; omega)
    (tokenize_ws h)
  refine ⟨s', ?_⟩
  show (parseStatementsTop (2 * (tokenize input).length + 2)
      (⟨tokenize input, 0⟩ : PState)).bind
      (fun body s0 => PRes.ok (⟨body, getNodePosition none s0⟩ : Program) s0) =
    PRes.ok (⟨[], none⟩ : Program) s'
  rw [hs']
  rfl

/-- Witness for C10 at the empty input and at the concrete input consisting
of a space, a tab and a newline. -/
theorem whitespace_parses_to_empty_program_witness :
    (∃ s', parse "" = .ok ⟨[], none⟩ s') ∧
    ∃ s', parse " \t\n" = .ok ⟨[], none⟩ s' :=
  ⟨whitespace_parses_to_empty_program "" (by decide),
    whitespace_parses_to_empty_program " \t\n" (by decide)⟩

/-- Witness for the amended C2 theorem: at `name=john` (next token is the
WORD `=`), the dispatch picks the VariableAssignment branch. -/
theorem parseStatement_word_dispatch_witness :
    parseStatement 1 ⟨tokenize "name=john", 0⟩ =
      (parseVariableAssignment ⟨tokenize "name=john", 0⟩).bind fun st s' => .ok (some st) s' := by
  have h := parseStatement_word_dispatch 0 ⟨tokenize "name=john", 0⟩ ⟨.WORD, "=", ⟨4, 5, 1, 5⟩⟩
    (by decide) (by decide)
  rw [h, if_pos rfl]

/-! ### Termination: the fuel bound chosen by `parse` never runs out -/

theorem PRes.bind_eq_fuelOut {α β : Type} {x : PRes α} {f : α → PState → PRes β} :
    x.bind f = .fuelOut ↔ x = .fuelOut ∨ ∃ a s₁, x = .ok a s₁ ∧ f a s₁ = .fuelOut := by
  cases x with
  | ok a s =>
    simp only [PRes.bind]
    constructor
    · intro h
      exact Or.inr ⟨a, s, rfl, h⟩
    · rintro (h | ⟨a', s₁, he, h⟩)
      · exact PRes.noConfusion h
      · injection he with h1 h2
        subst h1
        subst h2
        exact h
  | err e => simp [PRes.bind]
  | fuelOut => simp [PRes.bind]

theorem pstate_ext {a b : PState} (h1 : a.tokens = b.tokens)
    (h2 : a.position = b.position) : a = b := by
  cases a
  cases b
  cases h1
  cases h2
  rfl

/-- `advance` never runs out of fuel: it is not fuel-recursive. -/
theorem advTok_nf (s : PState) : advTok s ≠ .fuelOut := by
  intro h
  unfold advTok at h
  rcases hadv : advanceT s with ⟨s', tk⟩
  rw [hadv] at h
  rcases tk with _ | tok
  · exact PRes.noConfusion h
  · exact PRes.noConfusion h

/-- `consume` never runs out of fuel. -/
theorem consume_nf (t : TokenType) (msg : String) (s : PState) :
    consume t msg s ≠ .fuelOut := by
  unfold consume
  by_cases h : check t s = true
  · rw [if_pos h]
    exact advTok_nf s
  · rw [if_neg h]
    intro hh
    exact PRes.noConfusion hh

/-- `parseExpression` never runs out of fuel. -/
theorem parseExpression_nf (s : PState) : parseExpression s ≠ .fuelOut := by
  intro h
  unfold parseExpression at h
  by_cases h1 : check .WORD s = true ∨ check .QUOTED_STRING s = true
  · rw [if_pos h1] at h
    rw [PRes.bind_eq_fuelOut] at h
    rcases h with hx | ⟨a, s₁, -, hx⟩
    · exact advTok_nf s hx
    · exact PRes.noConfusion hx
  · rw [if_neg h1] at h
    by_cases h2 : check .VARIABLE s = true
    · rw [if_pos h2] at h
      rw [PRes.bind_eq_fuelOut] at h
      rcases h with hx | ⟨a, s₁, -, hx⟩
      · exact advTok_nf s hx
      · exact PRes.noConfusion hx
    · rw [if_neg h2] at h
      exact PRes.noConfusion h

/-- `parseVariableAssignment` never runs out of fuel. -/
theorem parseVariableAssignment_nf (s : PState) : parseVariableAssignment s ≠ .fuelOut := by
  intro h
  simp only [parseVariableAssignment] at h
  rw [PRes.bind_eq_fuelOut] at h
  rcases h with hx | ⟨nameTok, s₁, -, hx⟩
  · exact advTok_nf s hx
  rw [PRes.bind_eq_fuelOut] at hx
  rcases hx with hy | ⟨eqTok, s₂, -, hy⟩
  · exact consume_nf _ _ _ hy
  rw [PRes.bind_eq_fuelOut] at hy
  rcases hy with hz | ⟨v, s₃, -, hz⟩
  · exact parseExpression_nf _ hz
  · exact PRes.noConfusion hz

/-- The argument loop advances one token per iteration, so any fuel above the
number of tokens left suffices. -/
theorem argsLoop_nf : ∀ (fuel : Nat) (s : PState),
    s.tokens.length - s.position < fuel → argsLoop fuel s ≠ .fuelOut := by
  intro fuel
  induction fuel with
  | zero =>
    intro s hμ h
    omega
  | succ fuel ih =>
    intro s hμ h
    simp only [argsLoop] at h
    by_cases h1 : check .WORD s = true ∨ check .QUOTED_STRING s = true
    · rw [if_pos h1] at h
      have hlt : s.position < s.tokens.length := by
        rcases h1 with hh | hh
        · exact check_lt hh
        · exact check_lt hh
      have hend : isAtEndP s = false := by
        rcases h1 with hh | hh
        · exact isAtEndP_false_of_check (by decide) hh
        · exact isAtEndP_false_of_check (by decide) hh
      obtain ⟨tok, htok⟩ : ∃ tok, s.tokens[s.position]? = some tok :=
        ⟨s.tokens[s.position], List.getElem?_eq_getElem hlt⟩
      rw [PRes.bind_eq_fuelOut] at h
      rcases h with hx | ⟨tokx, s₁, hadv, hx⟩
      · exact advTok_nf s hx
      rw [advTok_not_end hend htok] at hadv
      cases hadv
      rw [PRes.bind_eq_fuelOut] at hx
      rcases hx with hy | ⟨rest, s₂, -, hy⟩
      · refine ih ⟨s.tokens, s.position + 1⟩ ?_ hy
        show s.tokens.length - (s.position + 1) < fuel
        omega
      · exact PRes.noConfusion hy
    · rw [if_neg h1] at h
      exact PRes.noConfusion h

/-- `parseCommand` never runs out of fuel above the number of tokens left. -/
theorem parseCommand_nf (fuel : Nat) (s : PState)
    (hμ : s.tokens.length - s.position < fuel) : parseCommand fuel s ≠ .fuelOut := by
  cases fuel with
  | zero =>
    intro h
    omega
  | succ fuel =>
    intro h
    simp only [parseCommand] at h
    by_cases hc : check .WORD s = true
    · rw [if_pos hc] at h
      have hlt := check_lt hc
      have hend := isAtEndP_false_of_check (by decide) hc
      obtain ⟨tok, htok⟩ : ∃ tok, s.tokens[s.position]? = some tok :=
        ⟨s.tokens[s.position], List.getElem?_eq_getElem hlt⟩
      rw [PRes.bind_eq_fuelOut] at h
      rcases h with hx | ⟨tokx, s₁, hadv, hx⟩
      · exact advTok_nf s hx
      rw [advTok_not_end hend htok] at hadv
      cases hadv
      rw [PRes.bind_eq_fuelOut] at hx
      rcases hx with hy | ⟨args, s₂, -, hy⟩
      · refine argsLoop_nf fuel ⟨s.tokens, s.position + 1⟩ ?_ hy
        show s.tokens.length - (s.position + 1) < fuel
        omega
      · exact PRes.noConfusion hy
    · rw [if_neg hc] at h
      exact PRes.noConfusion h

/-- The pipe loop consumes at least two tokens per iteration. -/
theorem pipeLoop_nf : ∀ (fuel : Nat) (cmds : List Cmd) (s : PState), PInv s →
    s.tokens.length - s.position < fuel → pipeLoop fuel cmds s ≠ .fuelOut := by
  intro fuel
  induction fuel with
  | zero =>
    intro cmds s _ hμ h
    omega
  | succ fuel ih =>
    intro cmds s hinv hμ h
    simp only [pipeLoop] at h
    by_cases hp : check .PIPE s = true
    · rw [if_pos hp] at h
      have hlt := check_lt hp
      have hend := isAtEndP_false_of_check (by decide) hp
      have hadv : advanceS s = ⟨s.tokens, s.position + 1⟩ := advanceS_not_end hend
      rw [hadv] at h
      have hinv1 : PInv (⟨s.tokens, s.position + 1⟩ : PState) := by
        have h0 := PInv_advanceS hinv
        rwa [hadv] at h0
      rw [PRes.bind_eq_fuelOut] at h
      rcases h with hx | ⟨c, s₂, hcmd, hx⟩
      · refine parseCommand_nf fuel ⟨s.tokens, s.position + 1⟩ ?_ hx
        show s.tokens.length - (s.position + 1) < fuel
        omega
      obtain ⟨hT1, hP1, hI1, -⟩ := parseCommand_ok hcmd hinv1
      have hT1' : s₂.tokens = s.tokens := hT1
      have hP1' : s.position + 1 < s₂.position := hP1
      refine ih (cmds ++ [c]) s₂ hI1 ?_ hx
      rw [hT1']
      omega
    · rw [if_neg hp] at h
      exact PRes.noConfusion h

/-- `parsePipeline` never runs out of fuel above the number of tokens left
plus one. -/
theorem parsePipeline_nf (fuel : Nat) (s : PState) (hinv : PInv s)
    (hμ : s.tokens.length - s.position + 1 < fuel) : parsePipeline fuel s ≠ .fuelOut := by
  cases fuel with
  | zero =>
    intro h
    omega
  | succ fuel =>
    intro h
    simp only [parsePipeline] at h
    rw [PRes.bind_eq_fuelOut] at h
    rcases h with hx | ⟨c, s₁, hcmd, hx⟩
    · exact parseCommand_nf fuel s (by omega) hx
    obtain ⟨hT1, hP1, hI1, -⟩ := parseCommand_ok hcmd hinv
    rw [PRes.bind_eq_fuelOut] at hx
    rcases hx with hy | ⟨cmds, s₂, -, hy⟩
    · refine pipeLoop_nf fuel [c] s₁ hI1 ?_ hy
      rw [hT1]
      omega
    · rcases cmds with _ | ⟨c0, _ | ⟨c1, rest⟩⟩ <;> exact PRes.noConfusion hy

/-- Head of `parseLoop` (for-header or while-condition): tokens preserved,
cursor strictly advanced, invariant preserved. -/
theorem loopHead_pos {s₁ : PState} {kindTok : Token}
    {parts : Option Expression × Option String × Option Expression} {s₅ : PState}
    (h : (if kindTok.value = "for" then
            (consume .WORD "Expected variable name" s₁).bind fun varTok s₂ =>
              (consume .WORD "Expected 'in'" s₂).bind fun _ s₃ =>
                (parseExpression s₃).bind fun iter s₄ =>
                  .ok ((none : Option Expression), some varTok.value, some iter) s₄
          else
            (parseExpression s₁).bind fun cond s₂ =>
              .ok (some cond, (none : Option String), (none : Option Expression)) s₂)
        = .ok parts s₅)
    (hinv : PInv s₁) :
    s₅.tokens = s₁.tokens ∧ s₁.position + 1 ≤ s₅.position ∧ PInv s₅ := by
  by_cases hfor : kindTok.value = "for"
  · rw [if_pos hfor] at h
    rw [PRes.bind_eq_ok] at h
    obtain ⟨varTok, s₂, hvar, h⟩ := h
    rw [PRes.bind_eq_ok] at h
    obtain ⟨inTok, s₃, hin, h⟩ := h
    rw [PRes.bind_eq_ok] at h
    obtain ⟨iter, s₄, hiter, h⟩ := h
    cases h
    obtain ⟨hT2, hP2, -, -, hI2f⟩ := consume_ok (by decide) hvar
    have hI2 : PInv s₂ := hI2f hinv.1
    obtain ⟨hT3, hP3, -, -, hI3f⟩ := consume_ok (by decide) hin
    have hI3 : PInv s₃ := hI3f (by rw [hT2]; exact hinv.1)
    obtain ⟨hT4, hP4, hI4, -⟩ := parseExpression_ok hiter hI3
    exact ⟨by rw [hT4, hT3, hT2], by omega, hI4⟩
  · rw [if_neg hfor] at h
    rw [PRes.bind_eq_ok] at h
    obtain ⟨cond, s₂, hcond, h⟩ := h
    cases h
    obtain ⟨hT2, hP2, hI2, -⟩ := parseExpression_ok hcond hinv
    exact ⟨hT2, by omega, hI2⟩

/-- The loop head never runs out of fuel: it is not fuel-recursive. -/
theorem loopHead_nf {s₁ : PState} {kindTok : Token}
    (h : (if kindTok.value = "for" then
            (consume .WORD "Expected variable name" s₁).bind fun varTok s₂ =>
              (consume .WORD "Expected 'in'" s₂).bind fun _ s₃ =>
                (parseExpression s₃).bind fun iter s₄ =>
                  .ok ((none : Option Expression), some varTok.value, some iter) s₄
          else
            (parseExpression s₁).bind fun cond s₂ =>
              .ok (some cond, (none : Option String), (none : Option Expression)) s₂)
        = .fuelOut) : False := by
  by_cases hfor : kindTok.value = "for"
  · rw [if_pos hfor] at h
    rw [PRes.bind_eq_fuelOut] at h
    rcases h with hy | ⟨varT, s₂, -, hy⟩
    · exact consume_nf _ _ _ hy
    rw [PRes.bind_eq_fuelOut] at hy
    rcases hy with hz | ⟨inT, s₃, -, hz⟩
    · exact consume_nf _ _ _ hz
    rw [PRes.bind_eq_fuelOut] at hz
    rcases hz with hw | ⟨iter, s₄, -, hw⟩
    · exact parseExpression_nf _ hw
    · exact PRes.noConfusion hw
  · rw [if_neg hfor] at h
    rw [PRes.bind_eq_fuelOut] at h
    rcases h with hy | ⟨cond, s₂, -, hy⟩
    · exact parseExpression_nf _ hy
    · exact PRes.noConfusion hy

/-- Sufficient fuel for `parseStatement`: tokens left plus three. -/
def StmtNF (fuel : Nat) : Prop :=
  ∀ s, PInv s → s.tokens.length - s.position + 3 ≤ fuel → parseStatement fuel s ≠ .fuelOut

/-- Sufficient fuel for `parseConditional`: tokens left plus two. -/
def CondNF (fuel : Nat) : Prop :=
  ∀ s, PInv s → s.tokens.length - s.position + 2 ≤ fuel → parseConditional fuel s ≠ .fuelOut

/-- Sufficient fuel for `parseLoop` under the dispatcher's FOR/WHILE guard:
tokens left plus two. -/
def LoopNF (fuel : Nat) : Prop :=
  ∀ s, PInv s → (check .FOR s = true ∨ check .WHILE s = true) →
    s.tokens.length - s.position + 2 ≤ fuel → parseLoop fuel s ≠ .fuelOut

/-- Sufficient fuel for `parseFunction`: tokens left plus two. -/
def FuncNF (fuel : Nat) : Prop :=
  ∀ s, PInv s → s.tokens.length - s.position + 2 ≤ fuel → parseFunction fuel s ≠ .fuelOut

/-- Sufficient fuel for `parseBody`: tokens left plus four. -/
def BodyNF (fuel : Nat) : Prop :=
  ∀ k s, PInv s → s.tokens.length - s.position + 4 ≤ fuel → parseBody k fuel s ≠ .fuelOut

/-- Sufficient fuel for `parseStatementsTop`: tokens left plus four. -/
def TopNF (fuel : Nat) : Prop :=
  ∀ s, PInv s → s.tokens.length - s.position + 4 ≤ fuel → parseStatementsTop fuel s ≠ .fuelOut

theorem parseStatement_nfStep {fuel : Nat} (hcN : CondNF fuel) (hlN : LoopNF fuel)
    (hfN : FuncNF fuel) : StmtNF (fuel + 1) := by
  intro s hinv hμ h
  simp only [parseStatement] at h
  by_cases h1 : check .COMMENT s = true
  · rw [if_pos h1] at h
    exact PRes.noConfusion h
  rw [if_neg h1] at h
  by_cases h2 : check .EOF s = true
  · rw [if_pos h2] at h
    exact PRes.noConfusion h
  rw [if_neg h2] at h
  by_cases h3 : check .IF s = true
  · rw [if_pos h3] at h
    rw [PRes.bind_eq_fuelOut] at h
    rcases h with hx | ⟨st, s₁, -, hx⟩
    · exact hcN s hinv (by omega) hx
    · exact PRes.noConfusion hx
  rw [if_neg h3] at h
  by_cases h4 : check .FOR s = true ∨ check .WHILE s = true
  · rw [if_pos h4] at h
    rw [PRes.bind_eq_fuelOut] at h
    rcases h with hx | ⟨st, s₁, -, hx⟩
    · exact hlN s hinv h4 (by omega) hx
    · exact PRes.noConfusion hx
  rw [if_neg h4] at h
  by_cases h5 : check .FUNCTION s = true
  · rw [if_pos h5] at h
    rw [PRes.bind_eq_fuelOut] at h
    rcases h with hx | ⟨st, s₁, -, hx⟩
    · exact hfN s hinv (by omega) hx
    · exact PRes.noConfusion hx
  rw [if_neg h5] at h
  by_cases h6 : isVariableAssignment s = true
  · rw [if_pos h6] at h
    rw [PRes.bind_eq_fuelOut] at h
    rcases h with hx | ⟨st, s₁, -, hx⟩
    · exact parseVariableAssignment_nf s hx
    · exact PRes.noConfusion hx
  rw [if_neg h6] at h
  by_cases h7 : check .WORD s = true
  · rw [if_pos h7] at h
    rw [PRes.bind_eq_fuelOut] at h
    rcases h with hx | ⟨st, s₁, -, hx⟩
    · exact parsePipeline_nf fuel s hinv (by omega) hx
    · exact PRes.noConfusion hx
  rw [if_neg h7] at h
  exact PRes.noConfusion h

theorem parseConditional_nfStep {fuel : Nat} (hbN : BodyNF fuel) (hbOK : BodyOK fuel) :
    CondNF (fuel + 1) := by
  intro s hinv hμ h
  simp only [parseConditional] at h
  rw [PRes.bind_eq_fuelOut] at h
  rcases h with hx | ⟨ifTok, s₁, hif, h⟩
  · exact consume_nf _ _ _ hx
  obtain ⟨hT1, hP1, -, -, hI1f⟩ := consume_ok (by decide) hif
  have hI1 : PInv s₁ := hI1f hinv.1
  rw [PRes.bind_eq_fuelOut] at h
  rcases h with hx | ⟨cond, s₂, hexpr, h⟩
  · exact parseExpression_nf _ hx
  obtain ⟨hT2, hP2, hI2, -⟩ := parseExpression_ok hexpr hI1
  rw [PRes.bind_eq_fuelOut] at h
  rcases h with hx | ⟨thenTok, s₃, hthen, h⟩
  · exact consume_nf _ _ _ hx
  obtain ⟨hT3, hP3, -, -, hI3f⟩ := consume_ok (by decide) hthen
  have hI3 : PInv s₃ := hI3f (by rw [hT2, hT1]; exact hinv.1)
  have hlen3 : s₃.tokens.length = s.tokens.length := by rw [hT3, hT2, hT1]
  have hlt3 : s₃.position < s₃.tokens.length := hI3.2
  rw [PRes.bind_eq_fuelOut] at h
  rcases h with hx | ⟨thenBody, s₄, hbody, h⟩
  · exact hbN .thenB s₃ hI3 (by omega) hx
  obtain ⟨hT4, hP4, hI4, -⟩ := hbOK .thenB s₃ thenBody s₄ hbody hI3
  rw [PRes.bind_eq_fuelOut] at h
  rcases h with hx | ⟨elseBody, s₆, helse, h⟩
  · by_cases he : check .ELSE s₄ = true
    · rw [if_pos he] at hx
      rw [PRes.bind_eq_fuelOut] at hx
      rcases hx with hy | ⟨els, s₅, -, hy⟩
      · refine hbN .elseB (advanceS s₄) (PInv_advanceS hI4) ?_ hy
        have hend4 : isAtEndP s₄ = false := isAtEndP_false_of_check (by decide) he
        rw [advanceS_not_end hend4]
        show s₄.tokens.length - (s₄.position + 1) + 4 ≤ fuel
        have e4 : s₄.tokens.length = s₃.tokens.length := by rw [hT4]
        omega
      · exact PRes.noConfusion hy
    · rw [if_neg he] at hx
      exact PRes.noConfusion hx
  rw [PRes.bind_eq_fuelOut] at h
  rcases h with hx | ⟨fiTok, s₇, -, hx⟩
  · exact consume_nf _ _ _ hx
  · exact PRes.noConfusion hx

theorem parseLoop_nfStep {fuel : Nat} (hbN : BodyNF fuel) : LoopNF (fuel + 1) := by
  intro s hinv hguard hμ h
  simp only [parseLoop] at h
  rw [PRes.bind_eq_fuelOut] at h
  rcases h with hx | ⟨kindTok, s₁, hadv, h⟩
  · exact advTok_nf s hx
  have hend : isAtEndP s = false := by
    rcases hguard with hg | hg
    · exact isAtEndP_false_of_check (by decide) hg
    · exact isAtEndP_false_of_check (by decide) hg
  obtain ⟨hlt0, tok0, htok0, hne0⟩ := isAtEndP_false_elim hend
  rw [advTok_not_end hend htok0] at hadv
  cases hadv
  have hI1 : PInv (⟨s.tokens, s.position + 1⟩ : PState) :=
    ⟨hinv.1, hinv.1.eofGuard _ _ htok0 hne0⟩
  rw [PRes.bind_eq_fuelOut] at h
  rcases h with hx | ⟨parts, s₅, hhead, h⟩
  · exact loopHead_nf hx
  obtain ⟨hT5, hP5, hI5⟩ := loopHead_pos hhead hI1
  have hT5' : s₅.tokens = s.tokens := hT5
  have hP5' : s.position + 1 + 1 ≤ s₅.position := hP5
  rw [PRes.bind_eq_fuelOut] at h
  rcases h with hx | ⟨doTok, s₆, hdo, h⟩
  · exact consume_nf _ _ _ hx
  obtain ⟨hT6, hP6, -, -, hI6f⟩ := consume_ok (by decide) hdo
  have hI6 : PInv s₆ := hI6f (by rw [hT5']; exact hinv.1)
  rw [PRes.bind_eq_fuelOut] at h
  rcases h with hx | ⟨body, s₇, hbody, h⟩
  · refine hbN .loopB s₆ hI6 ?_ hx
    have e6 : s₆.tokens.length = s.tokens.length := by rw [hT6, hT5']
    have hlt6 : s₆.position < s₆.tokens.length := hI6.2
    omega
  rw [PRes.bind_eq_fuelOut] at h
  rcases h with hx | ⟨doneTok, s₈, -, hx⟩
  · exact consume_nf _ _ _ hx
  · exact PRes.noConfusion hx

theorem parseFunction_nfStep {fuel : Nat} (hbN : BodyNF fuel) : FuncNF (fuel + 1) := by
  intro s hinv hμ h
  simp only [parseFunction] at h
  rw [PRes.bind_eq_fuelOut] at h
  rcases h with hx | ⟨fnTok, s₁, hfn, h⟩
  · exact consume_nf _ _ _ hx
  obtain ⟨hT1, hP1, -, -, hI1f⟩ := consume_ok (by decide) hfn
  have hI1 : PInv s₁ := hI1f hinv.1
  rw [PRes.bind_eq_fuelOut] at h
  rcases h with hx | ⟨nameTok, s₂, hname, h⟩
  · exact consume_nf _ _ _ hx
  obtain ⟨hT2, hP2, -, -, hI2f⟩ := consume_ok (by decide) hname
  have hI2 : PInv s₂ := hI2f (by rw [hT1]; exact hinv.1)
  rw [PRes.bind_eq_fuelOut] at h
  rcases h with hx | ⟨lpTok, s₃, hlp, h⟩
  · exact consume_nf _ _ _ hx
  obtain ⟨hT3, hP3, -, -, hI3f⟩ := consume_ok (by decide) hlp
  have hI3 : PInv s₃ := hI3f (by rw [hT2, hT1]; exact hinv.1)
  rw [PRes.bind_eq_fuelOut] at h
  rcases h with hx | ⟨rpTok, s₄, hrp, h⟩
  · exact consume_nf _ _ _ hx
  obtain ⟨hT4, hP4, -, -, hI4f⟩ := consume_ok (by decide) hrp
  have hI4 : PInv s₄ := hI4f (by rw [hT3, hT2, hT1]; exact hinv.1)
  rw [PRes.bind_eq_fuelOut] at h
  rcases h with hx | ⟨lbTok, s₅, hlb, h⟩
  · exact consume_nf _ _ _ hx
  obtain ⟨hT5, hP5, -, -, hI5f⟩ := consume_ok (by decide) hlb
  have hI5 : PInv s₅ := hI5f (by rw [hT4, hT3, hT2, hT1]; exact hinv.1)
  rw [PRes.bind_eq_fuelOut] at h
  rcases h with hx | ⟨body, s₆, hbody, h⟩
  · refine hbN .funcB s₅ hI5 ?_ hx
    have e5 : s₅.tokens.length = s.tokens.length := by rw [hT5, hT4, hT3, hT2, hT1]
    have hlt5 : s₅.position < s₅.tokens.length := hI5.2
    omega
  rw [PRes.bind_eq_fuelOut] at h
  rcases h with hx | ⟨rbTok, s₇, -, hx⟩
  · exact consume_nf _ _ _ hx
  · exact PRes.noConfusion hx

/-- `stopB` is false only strictly inside the token stream. -/
theorem stopB_false_end {k : BodyKind} {s : PState} (h : stopB k s = false) :
    isAtEndP s = false := by
  cases k with
  | thenB =>
    simp only [stopB, Bool.or_eq_false_iff] at h
    exact h.2
  | elseB =>
    simp only [stopB, Bool.or_eq_false_iff] at h
    exact h.2
  | loopB =>
    simp only [stopB, Bool.or_eq_false_iff] at h
    exact h.2
  | funcB =>
    simp only [stopB, Bool.or_eq_false_iff] at h
    exact h.2

theorem parseBody_nfStep {fuel : Nat} (hsN : StmtNF fuel) (hsOK : StmtOK fuel)
    (hbN : BodyNF fuel) : BodyNF (fuel + 1) := by
  intro k s hinv hμ h
  simp only [parseBody] at h
  by_cases h1 : stopB k s = true
  · rw [if_pos h1] at h
    exact PRes.noConfusion h
  rw [if_neg h1] at h
  have h1f : stopB k s = false := by simpa using h1
  have hend : isAtEndP s = false := stopB_false_end h1f
  have hlt := hinv.2
  by_cases h2 : check .NEWLINE s = true
  · rw [if_pos h2] at h
    refine hbN k (advanceS s) (PInv_advanceS hinv) ?_ h
    rw [advanceS_not_end hend]
    show s.tokens.length - (s.position + 1) + 4 ≤ fuel
    omega
  rw [if_neg h2] at h
  rw [PRes.bind_eq_fuelOut] at h
  rcases h with hx | ⟨st?, s₁, hstmt, h⟩
  · exact hsN s hinv (by omega) hx
  obtain ⟨hT1, hP1, hI1, hsome⟩ := hsOK s st? s₁ hstmt hinv
  rcases st? with _ | st
  · have hadv1 : s.position + 1 ≤ (advanceS s₁).position := by
      by_cases hcase : s₁.position = s.position
      · have hs₁ : s₁ = s := pstate_ext hT1 hcase
        rw [hs₁, advanceS_not_end hend]
      · have h0 := advanceS_pos_le s₁
        omega
    refine hbN k (advanceS s₁) (PInv_advanceS hI1) ?_ h
    rw [advanceS_tokens, hT1]
    omega
  · obtain ⟨hPlt, -⟩ := hsome st rfl
    rw [PRes.bind_eq_fuelOut] at h
    rcases h with hx | ⟨rest, s₂, -, hx⟩
    · refine hbN k s₁ hI1 ?_ hx
      rw [hT1]
      omega
    · exact PRes.noConfusion hx

theorem parseStatementsTop_nfStep {fuel : Nat} (hsN : StmtNF fuel) (hsOK : StmtOK fuel)
    (htopN : TopNF fuel) : TopNF (fuel + 1) := by
  have hmid : ∀ s0 : PState,
      (if check .SEMICOLON s0 = true ∨ check .NEWLINE s0 = true then advanceS s0 else s0).tokens
        = s0.tokens ∧
      s0.position ≤
        (if check .SEMICOLON s0 = true ∨ check .NEWLINE s0 = true then advanceS s0
          else s0).position ∧
      (PInv s0 → PInv (if check .SEMICOLON s0 = true ∨ check .NEWLINE s0 = true then advanceS s0
          else s0)) := by
    intro s0
    split
    · exact ⟨advanceS_tokens s0, advanceS_pos_le s0, PInv_advanceS⟩
    · exact ⟨rfl, Nat.le_refl _, id⟩
  intro s hinv hμ h
  simp only [parseStatementsTop] at h
  by_cases h1 : (isAtEndP s || check .EOF s) = true
  · rw [if_pos h1] at h
    exact PRes.noConfusion h
  rw [if_neg h1] at h
  have h1f : (isAtEndP s || check .EOF s) = false := by simpa using h1
  have hend : isAtEndP s = false := (Bool.or_eq_false_iff.mp h1f).1
  have hlt := hinv.2
  by_cases h2 : check .NEWLINE s = true
  · rw [if_pos h2] at h
    refine htopN (advanceS s) (PInv_advanceS hinv) ?_ h
    rw [advanceS_not_end hend]
    show s.tokens.length - (s.position + 1) + 4 ≤ fuel
    omega
  rw [if_neg h2] at h
  rw [PRes.bind_eq_fuelOut] at h
  rcases h with hx | ⟨st?, s₁, hstmt, h⟩
  · exact hsN s hinv (by omega) hx
  obtain ⟨hT1, hP1, hI1, hsome⟩ := hsOK s st? s₁ hstmt hinv
  rcases st? with _ | st
  · have hadv1 : s.position + 1 ≤ (advanceS s₁).position := by
      by_cases hcase : s₁.position = s.position
      · have hs₁ : s₁ = s := pstate_ext hT1 hcase
        rw [hs₁, advanceS_not_end hend]
      · have h0 := advanceS_pos_le s₁
        omega
    obtain ⟨hmT, hmP, hmI⟩ := hmid (advanceS s₁)
    refine htopN _ (hmI (PInv_advanceS hI1)) ?_ h
    rw [hmT, advanceS_tokens, hT1]
    omega
  · obtain ⟨hPlt, -⟩ := hsome st rfl
    obtain ⟨hmT, hmP, hmI⟩ := hmid s₁
    rw [PRes.bind_eq_fuelOut] at h
    rcases h with hx | ⟨rest, s₄, -, hx⟩
    · refine htopN _ (hmI hI1) ?_ hx
      rw [hmT, hT1]
      omega
    · exact PRes.noConfusion hx

/-- All sufficient-fuel statements hold at every fuel value. -/
theorem parser_nf : ∀ fuel : Nat,
    StmtNF fuel ∧ CondNF fuel ∧ LoopNF fuel ∧ FuncNF fuel ∧ BodyNF fuel ∧ TopNF fuel := by
  intro fuel
  induction fuel with
  | zero =>
    refine ⟨?_, ?_, ?_, ?_, ?_, ?_⟩
    · intro s _ hμ h
      omega
    · intro s _ hμ h
      omega
    · intro s _ _ hμ h
      omega
    · intro s _ hμ h
      omega
    · intro k s _ hμ h
      omega
    · intro s _ hμ h
      omega
  | succ fuel ih =>
    obtain ⟨hsN, hcN, hlN, hfN, hbN, htopN⟩ := ih
    obtain ⟨hsOK, hcOK, hlOK, hfOK, hbOK, htopOK⟩ := parser_sound fuel
    exact ⟨parseStatement_nfStep hcN hlN hfN, parseConditional_nfStep hbN hbOK,
      parseLoop_nfStep hbN, parseFunction_nfStep hbN, parseBody_nfStep hsN hsOK hbN,
      parseStatementsTop_nfStep hsN hsOK htopN⟩

/-- A statement stream that is already exhausted parses to the empty list. -/
theorem parseStatementsTop_end {fuel : Nat} {s : PState}
    (h : (isAtEndP s || check .EOF s) = true) : parseStatementsTop fuel s = .ok [] s := by
  cases fuel with
  | zero =>
    simp only [parseStatementsTop]
    rw [if_pos h]
  | succ fuel =>
    simp only [parseStatementsTop]
    rw [if_pos h]

/-- `parse` never runs out of fuel at its chosen bound. -/
theorem parse_nf (input : String) : parse input ≠ .fuelOut := by
  intro h
  unfold parse at h
  rw [PRes.bind_eq_fuelOut] at h
  rcases h with hx | ⟨body, s₁, -, hx⟩
  · have hinv : PInv (⟨tokenize input, 0⟩ : PState) :=
      ⟨tokenize_inv input, tokenize_length_pos input⟩
    by_cases hlen : 2 ≤ (tokenize input).length
    · refine (parser_nf (2 * (tokenize input).length + 2)).2.2.2.2.2 ⟨tokenize input, 0⟩
        hinv ?_ hx
      show (tokenize input).length - 0 + 4 ≤ 2 * (tokenize input).length + 2
      omega
    · have hone : (tokenize input).length = 1 := by
        have := tokenize_length_pos input
        omega
      have hzlt : 0 < (tokenize input).length := tokenize_length_pos input
      obtain ⟨t0, ht⟩ : ∃ t, (tokenize input)[0]? = some t :=
        ⟨(tokenize input)[0], List.getElem?_eq_getElem hzlt⟩
      have hty : t0.type = .EOF := by
        by_contra hne
        have := (tokenize_inv input).eofGuard 0 t0 ht hne
        omega
      have hchk : check .EOF (⟨tokenize input, 0⟩ : PState) = true :=
        check_true_iff.mpr ⟨t0, ht, hty⟩
      rw [parseStatementsTop_end (by rw [hchk, Bool.or_true])] at hx
      exact PRes.noConfusion hx
  · exact PRes.noConfusion hx

/-- C4: for every finite input string the scanner terminates after consuming
the entire input (its fuel bound, the input length plus one, is sufficient)
and returns a finite token sequence whose last element is an EOF token; and
the syntax builder terminates at the fuel bound chosen by `parse` (it never
runs out of fuel), so `parse` either returns a Program or raises a
ParseError. -/
theorem tokenize_and_parse_terminate (input : String) :
    (tokenizeFull input).2.remaining = [] ∧
    (∃ t, (tokenize input).getLast? = some t ∧ t.type = .EOF) ∧
    ((∃ prog s', parse input = .ok prog s') ∨ (∃ e, parse input = .err e)) := by
  refine ⟨?_, ?_, ?_⟩
  · show (tokenizeAux (input.toList.length + 1) (initTkState input)).2.remaining = []
    refine tokenizeAux_consumes (input.toList.length + 1) (initTkState input) ?_
    show input.toList.length ≤ input.toList.length + 1
    omega
  · rw [tokenize_eq input]
    exact ⟨_, List.getLast?_concat _, rfl⟩
  · cases hp : parse input with
    | ok prog s' => exact Or.inl ⟨prog, s', rfl⟩
    | err e => exact Or.inr ⟨e, rfl⟩
    | fuelOut => exact absurd hp (parse_nf input)

end BashAst
